import Mathlib

/-!
# ClangDiagnosticConfigsWidget

A shallow embedding of `src/plugins/cpptools/clangdiagnosticconfigswidget.cpp`
and a verification of its validation, editing, copying and selection logic.

Conventions of the embedding.

* A `QString` is the list of its characters, each a Unicode scalar value (Qt
  stores UTF-16 code units; no length or position of a string is observed
  below, only equality, prefixes and occurrences). A null and an empty
  `QString` are both `[]` (Qt compares them equal and `isEmpty()` holds of
  both).
* The functions of `QString` and `QChar` follow the Qt 5 documentation and
  implementation; the class of the model and the record of a configuration
  are not among the sources and are modelled where they are declared below.
* `tr` is the identity: messages are in the source language.
* A slot that reads `selectedConfig()` with `m_selectedConfigIndex` outside the
  model has no defined result (`QList::at` asserts); it returns `none`.
* `emit customConfigsChanged(x)` appends `x` to the log `customConfigsChanged`
  of the widget.
* The value of `qEnvironmentVariableIntValue("QTC_CLANG_NO_DIAGNOSTIC_CHECK")`
  is the explicit argument `noDiagnosticCheck` (0 when the variable is unset).
-/

namespace CppTools

/-! ## Qt strings -/

abbrev QString := List Char

abbrev QStringList := List QString

/-- `QChar::isSpace`: the ASCII white space characters, NEL, NBSP and the
Unicode separator categories Zs, Zl and Zp. -/
def QChar.isSpace (c : Char) : Bool :=
  let u := c.toNat
  u == 0x20 || (0x09 ≤ u && u ≤ 0x0d) || u == 0x85 || u == 0xa0 || u == 0x1680
    || (0x2000 ≤ u && u ≤ 0x200a) || u == 0x2028 || u == 0x2029 || u == 0x202f
    || u == 0x205f || u == 0x3000

/-- `QString::startsWith(s)`, case sensitive. -/
def QString.startsWith (str s : QString) : Bool :=
  s.isPrefixOf str

/-- `QString::arg(a)` for a format string whose place markers are all `%1`
(none followed by a digit): every `%1` is replaced by `a`. -/
def QString.arg : QString → QString → QString
  | '%' :: '1' :: rest, a => a ++ QString.arg rest a
  | c :: rest, a => c :: QString.arg rest a
  | [], _ => []

/-- The loop of `QString::simplified()`: white space before a word is skipped,
the word is copied, and one space is written after it unless the input ends
there. `inWord` tells that the previous character was copied. -/
def QString.simplifiedLoop : Bool → QString → QString
  | _, [] => []
  | inWord, c :: cs =>
    if QChar.isSpace c then
      if inWord then ' ' :: QString.simplifiedLoop false cs
      else QString.simplifiedLoop false cs
    else c :: QString.simplifiedLoop true cs

/-- `QString::simplified()`: the output of the loop without the space it may
end in. -/
def QString.simplified (str : QString) : QString :=
  let r := QString.simplifiedLoop false str
  if r.getLast? = some ' ' then r.dropLast else r

/-- `QString::split(sep, QString::KeepEmptyParts)`. -/
def QString.splitKeepEmptyParts (sep : Char) : QString → QStringList
  | [] => [[]]
  | c :: cs =>
    if c = sep then [] :: QString.splitKeepEmptyParts sep cs
    else
      match QString.splitKeepEmptyParts sep cs with
      | [] => [[c]]
      | w :: ws => (c :: w) :: ws

/-- `QString::split(sep, QString::SkipEmptyParts)`. -/
def QString.split (str : QString) (sep : Char) : QStringList :=
  (QString.splitKeepEmptyParts sep str).filter (fun part => !part.isEmpty)

/-- The search of `QString::indexOf(str)` from position `i` on: the position of
the first occurrence of `str`, -1 when there is none. The empty string occurs
at every position, the end included. -/
def QString.indexOfFrom (str : QString) : QString → Int → Int
  | [], i => if str.isEmpty then i else -1
  | c :: cs, i =>
    if str.isPrefixOf (c :: cs) then i else QString.indexOfFrom str cs (i + 1)

/-- `QString::indexOf(str)`, case sensitive, from the start. -/
def QString.indexOf (s str : QString) : Int :=
  QString.indexOfFrom str s 0

/-- The loop of `QString::remove(str)` for a non-empty `str`: the text is
scanned from the left; an occurrence of `str` is dropped and the scan goes on
behind it. `skip` counts the characters of an occurrence still to drop. -/
def QString.removeLoop (str : QString) : Nat → QString → QString
  | _, [] => []
  | skip + 1, _ :: cs => QString.removeLoop str skip cs
  | 0, c :: cs =>
    if str.isPrefixOf (c :: cs) then QString.removeLoop str (str.length - 1) cs
    else c :: QString.removeLoop str 0 cs

/-- `QString::remove(str)`, case sensitive: every occurrence of `str` is
removed; nothing is removed when `str` is empty. -/
def QString.remove (s str : QString) : QString :=
  if str.isEmpty then s else QString.removeLoop str 0 s

/-! ## Validation of diagnostic options -/

def isAcceptedWarningOption (option : QString) : Bool :=
  option == "-w".toList
    || option == "-pedantic".toList
    || option == "-pedantic-errors".toList

def isValidOption (option : QString) : Bool :=
  if option == "-Werror".toList then
    false
  else
    QString.startsWith option "-W".toList || isAcceptedWarningOption option

/-- The loop of `validateDiagnosticOptions`: the message for the first option
that is not valid, the empty string when there is none. -/
def validateDiagnosticOptionsLoop : QStringList → QString
  | [] => []
  | option :: rest =>
    if !isValidOption option then
      QString.arg "Option \"%1\" is invalid.".toList option
    else
      validateDiagnosticOptionsLoop rest

def validateDiagnosticOptions (noDiagnosticCheck : Int) (options : QStringList) : QString :=
  if noDiagnosticCheck ≠ 0 then
    []
  else
    validateDiagnosticOptionsLoop options

def normalizeDiagnosticInputOptions (options : QString) : QStringList :=
  QString.split (QString.simplified options) ' '

/-! ## The data model -/

namespace Core

/-- `Core::Id`: an identifier, compared by value. -/
abbrev Id := Nat

end Core

/-- Modelled from the spec: the class `ClangDiagnosticConfig`, declared in a
header that is not among the sources. It is the record of the data model (id,
display name, read-only flag, list of compiler options, clang-tidy mode and
checks, clazy checks); every getter and setter the widget calls reads or writes
one field. `clangTidyMode` holds the value of the enumeration `TidyMode` as the
integer it is cast from. -/
structure ClangDiagnosticConfig where
  id : Core.Id
  displayName : QString
  clangOptions : QStringList
  clangTidyMode : Int
  clangTidyChecksPrefixes : QString
  clangTidyChecksString : QString
  clazyChecks : QString
  isReadOnly : Bool
  deriving DecidableEq, Repr

abbrev ClangDiagnosticConfigs := List ClangDiagnosticConfig

/-- Modelled from the spec: the class `ClangDiagnosticConfigsModel`, whose
implementation is not among the sources. It is the ordered list of the
configurations ("held in an ordered list model"). -/
abbrev ClangDiagnosticConfigsModel := List ClangDiagnosticConfig

namespace ClangDiagnosticConfigsModel

/-- Modelled from the spec: `ClangDiagnosticConfigsModel::size()`, the number of
configurations of the list. -/
def size (m : ClangDiagnosticConfigsModel) : Int :=
  (m.length : Int)

/-- Modelled from the spec: `ClangDiagnosticConfigsModel::at(index)`, the
configuration at a position of the list; no result outside the list. -/
def configAt (m : ClangDiagnosticConfigsModel) (index : Int) : Option ClangDiagnosticConfig :=
  if 0 ≤ index then m[index.toNat]? else none

/-- Modelled from the spec: `ClangDiagnosticConfigsModel::configs()`, the list of
all configurations in model order. -/
def configs (m : ClangDiagnosticConfigsModel) : ClangDiagnosticConfigs :=
  m

/-- Modelled from the spec: `ClangDiagnosticConfigsModel::indexOfConfig(id)`, the
position of the first configuration with the id, -1 when there is none. -/
def indexOfConfig (m : ClangDiagnosticConfigsModel) (id : Core.Id) : Int :=
  match m.findIdx? (fun config => config.id == id) with
  | some i => (i : Int)
  | none => -1

/-- Modelled from the spec: `ClangDiagnosticConfigsModel::appendOrUpdate(config)`.
The configuration of the list with the id of `config` (the first one) is
updated in place: it is replaced by `config`, at its position. When the list
has none, `config` is appended at the end. -/
def appendOrUpdate : ClangDiagnosticConfigsModel → ClangDiagnosticConfig →
    ClangDiagnosticConfigsModel
  | [], config => [config]
  | c :: cs, config =>
    if c.id == config.id then config :: cs else c :: appendOrUpdate cs config

/-- Modelled from the spec: `ClangDiagnosticConfigsModel::removeConfigWithId(id)`,
which removes the configuration with the id (the first one) from the list. -/
def removeConfigWithId (m : ClangDiagnosticConfigsModel) (id : Core.Id) :
    ClangDiagnosticConfigsModel :=
  m.eraseP (fun c => c.id == id)

end ClangDiagnosticConfigsModel

/-! ## The widget -/

/-- The two icons of `Utils::Icons` the widget shows next to the status label. -/
inductive Icon where
  | INFO
  | CRITICAL
  deriving DecidableEq, Repr

/-- The state of a `ClangDiagnosticConfigsWidget`: its members, the widgets of
the form that the slots below read or write, and the log of the emitted
`customConfigsChanged` signals. The widgets inside the Clang-Tidy and Clazy
tabs are views that no slot reads back (a slot gets the clicked item or the
radio buttons as its argument); of these tabs the state keeps the enabled
flag. -/
structure ClangDiagnosticConfigsWidget where
  m_diagnosticConfigsModel : ClangDiagnosticConfigsModel
  m_selectedConfigIndex : Int
  /-- The hash `m_notAcceptedOptions`, as its lookup function. -/
  m_notAcceptedOptions : Core.Id → Option QString
  /-- The item texts of `m_ui->configChooserList`. -/
  configChooserList : List QString
  /-- The current row of `m_ui->configChooserList`, -1 when it has none. -/
  configChooserCurrentRow : Int
  removeButtonEnabled : Bool
  infoIcon : Icon
  infoLabelText : QString
  infoLabelStyleSheet : QString
  /-- The plain text of `m_clangBaseChecks->diagnosticOptionsTextEdit`. -/
  diagnosticOptionsTextEdit : QString
  clangBaseChecksWidgetEnabled : Bool
  tidyChecksWidgetEnabled : Bool
  clazyChecksWidgetEnabled : Bool
  /-- The arguments of the `customConfigsChanged` signals emitted so far, oldest first. -/
  customConfigsChanged : List ClangDiagnosticConfigs

namespace ClangDiagnosticConfigsWidget

/-- `QHash::insert`: the value of the key is set, also when it had one. -/
def hashInsert (h : Core.Id → Option QString) (key : Core.Id) (value : QString) :
    Core.Id → Option QString :=
  fun k => if k = key then some value else h k

/-- `QHash::remove`. -/
def hashRemove (h : Core.Id → Option QString) (key : Core.Id) : Core.Id → Option QString :=
  fun k => if k = key then none else h k

def selectedConfig (w : ClangDiagnosticConfigsWidget) : Option ClangDiagnosticConfig :=
  w.m_diagnosticConfigsModel.configAt w.m_selectedConfigIndex

def selectedConfigId (w : ClangDiagnosticConfigsWidget) : Option Core.Id :=
  (selectedConfig w).map (fun config => config.id)

def customConfigs (w : ClangDiagnosticConfigsWidget) : ClangDiagnosticConfigs :=
  let allConfigs := w.m_diagnosticConfigsModel.configs
  allConfigs.filter (fun config => !config.isReadOnly)

def updateConfig (w : ClangDiagnosticConfigsWidget) (config : ClangDiagnosticConfig) :
    ClangDiagnosticConfigsWidget :=
  let w1 := { w with m_diagnosticConfigsModel := w.m_diagnosticConfigsModel.appendOrUpdate config }
  { w1 with customConfigsChanged := w1.customConfigsChanged ++ [customConfigs w1] }

def isConfigChooserEmpty (w : ClangDiagnosticConfigsWidget) : Bool :=
  w.configChooserList.length == 0

def updateValidityWidgets (w : ClangDiagnosticConfigsWidget) (errorMessage : QString) :
    ClangDiagnosticConfigsWidget :=
  if errorMessage.isEmpty then
    { w with
      infoIcon := Icon.INFO
      infoLabelText := "Configuration passes sanity checks.".toList
      infoLabelStyleSheet := [] }
  else
    { w with
      infoIcon := Icon.CRITICAL
      infoLabelText := QString.arg "%1".toList errorMessage
      infoLabelStyleSheet := "color: red;".toList }

/-- `setDiagnosticOptions`: the text edit is written while its change signal is
disconnected, so `onDiagnosticOptionsEdited` does not run. -/
def setDiagnosticOptions (noDiagnosticCheck : Int) (w : ClangDiagnosticConfigsWidget)
    (options : QString) : ClangDiagnosticConfigsWidget :=
  let w1 :=
    if options ≠ w.diagnosticOptionsTextEdit then
      { w with diagnosticOptionsTextEdit := options }
    else w
  let errorMessage :=
    validateDiagnosticOptions noDiagnosticCheck (normalizeDiagnosticInputOptions options)
  updateValidityWidgets w1 errorMessage

/-- Of `syncClangTidyWidgets` the enabled flag of the tab; its other writes go
to widgets inside the tab, with the tab's signals disconnected. -/
def syncClangTidyWidgets (w : ClangDiagnosticConfigsWidget) (config : ClangDiagnosticConfig) :
    ClangDiagnosticConfigsWidget :=
  { w with tidyChecksWidgetEnabled := !config.isReadOnly }

/-- Of `syncClazyWidgets` the enabled flag of the tab; the radio button it
checks is inside the tab (`setChecked` emits no `clicked`). -/
def syncClazyWidgets (w : ClangDiagnosticConfigsWidget) (config : ClangDiagnosticConfig) :
    ClangDiagnosticConfigsWidget :=
  { w with clazyChecksWidgetEnabled := !config.isReadOnly }

def syncOtherWidgetsToComboBox (noDiagnosticCheck : Int) (w : ClangDiagnosticConfigsWidget) :
    Option ClangDiagnosticConfigsWidget :=
  if isConfigChooserEmpty w then
    some w
  else
    match selectedConfig w with
    | none => none
    | some config =>
      let w1 := { w with removeButtonEnabled := !config.isReadOnly }
      let options :=
        match w1.m_notAcceptedOptions config.id with
        | some text => text
        | none => List.intercalate [' '] config.clangOptions
      let w2 := setDiagnosticOptions noDiagnosticCheck w1 options
      let w3 := { w2 with clangBaseChecksWidgetEnabled := !config.isReadOnly }
      let w4 :=
        if config.isReadOnly then
          { w3 with
            infoIcon := Icon.INFO
            infoLabelText := "Copy this configuration to customize it.".toList
            infoLabelStyleSheet := [] }
        else w3
      some (syncClazyWidgets (syncClangTidyWidgets w4 config) config)

def onCurrentConfigChanged (noDiagnosticCheck : Int) (w : ClangDiagnosticConfigsWidget)
    (index : Int) : Option ClangDiagnosticConfigsWidget :=
  syncOtherWidgetsToComboBox noDiagnosticCheck { w with m_selectedConfigIndex := index }

/-- The loop of `syncConfigChooserToModel` over the configurations from row `i`
on: the selected index becomes the row of every configuration whose id is
`configToSelect`, so it ends as the last such row. -/
def syncConfigChooserToModelLoop (configToSelect : Core.Id) :
    List ClangDiagnosticConfig → Int → Int → Int
  | [], _, selected => selected
  | config :: rest, i, selected =>
    syncConfigChooserToModelLoop configToSelect rest (i + 1)
      (if configToSelect == config.id then i else selected)

/-- `syncConfigChooserToModel`. The list is cleared and filled while its
`currentRowChanged` signal is disconnected; `setCurrentRow` runs with the
signal connected again, so for a row of the list the slot
`onCurrentConfigChanged` runs. `displayNameWithBuiltinIndication` is the static
function of the model class of that name, not among the sources. -/
def syncConfigChooserToModel
    (displayNameWithBuiltinIndication : ClangDiagnosticConfig → QString)
    (noDiagnosticCheck : Int) (w : ClangDiagnosticConfigsWidget) (configToSelect : Core.Id) :
    Option ClangDiagnosticConfigsWidget :=
  let w1 := { w with configChooserList := [], configChooserCurrentRow := -1 }
  let w2 := { w1 with
    m_selectedConfigIndex :=
      max (min w1.m_selectedConfigIndex (w1.m_diagnosticConfigsModel.size - 1)) 0 }
  let w3 := { w2 with
    configChooserList := w2.m_diagnosticConfigsModel.map displayNameWithBuiltinIndication
    m_selectedConfigIndex :=
      syncConfigChooserToModelLoop configToSelect w2.m_diagnosticConfigsModel 0
        w2.m_selectedConfigIndex }
  if 0 ≤ w3.m_selectedConfigIndex ∧ w3.m_selectedConfigIndex < w3.configChooserList.length then
    onCurrentConfigChanged noDiagnosticCheck
      { w3 with configChooserCurrentRow := w3.m_selectedConfigIndex } w3.m_selectedConfigIndex
  else
    some w3

/-- Modelled from the spec: the default argument of `syncConfigChooserToModel`,
given in the header of the widget, which is not among the sources; it is taken
to be the default-constructed `Core::Id()`. No proof below uses its value. -/
def defaultConfigToSelect : Core.Id := 0

def syncWidgetsToModel
    (displayNameWithBuiltinIndication : ClangDiagnosticConfig → QString)
    (noDiagnosticCheck : Int) (w : ClangDiagnosticConfigsWidget) (configToSelect : Core.Id) :
    Option ClangDiagnosticConfigsWidget :=
  match syncConfigChooserToModel displayNameWithBuiltinIndication noDiagnosticCheck w
      configToSelect with
  | none => none
  | some w1 => syncOtherWidgetsToComboBox noDiagnosticCheck w1

/-- `createCustomConfig`; `uuid` is the id made from `QUuid::createUuid()`. -/
def createCustomConfig (config : ClangDiagnosticConfig) (uuid : Core.Id)
    (displayName : QString) : ClangDiagnosticConfig :=
  let copied := config
  let copied := { copied with id := uuid }
  let copied := { copied with displayName := displayName }
  let copied := { copied with isReadOnly := false }
  copied

/-- `onCopyButtonClicked`; `diaglogAccepted` and `newName` are what the input
dialog returns, `uuid` the id generated for an accepted copy. -/
def onCopyButtonClicked
    (displayNameWithBuiltinIndication : ClangDiagnosticConfig → QString)
    (noDiagnosticCheck : Int) (w : ClangDiagnosticConfigsWidget)
    (diaglogAccepted : Bool) (newName : QString) (uuid : Core.Id) :
    Option ClangDiagnosticConfigsWidget :=
  match selectedConfig w with
  | none => none
  | some config =>
    if diaglogAccepted then
      let customConfig := createCustomConfig config uuid newName
      let w1 := { w with
        m_diagnosticConfigsModel := w.m_diagnosticConfigsModel.appendOrUpdate customConfig }
      let w2 := { w1 with customConfigsChanged := w1.customConfigsChanged ++ [customConfigs w1] }
      syncConfigChooserToModel displayNameWithBuiltinIndication noDiagnosticCheck w2
        customConfig.id
    else
      some w

def onRemoveButtonClicked
    (displayNameWithBuiltinIndication : ClangDiagnosticConfig → QString)
    (noDiagnosticCheck : Int) (w : ClangDiagnosticConfigsWidget) :
    Option ClangDiagnosticConfigsWidget :=
  match selectedConfigId w with
  | none => none
  | some id =>
    let w1 := { w with
      m_diagnosticConfigsModel := w.m_diagnosticConfigsModel.removeConfigWithId id }
    let w2 := { w1 with customConfigsChanged := w1.customConfigsChanged ++ [customConfigs w1] }
    syncConfigChooserToModel displayNameWithBuiltinIndication noDiagnosticCheck w2
      defaultConfigToSelect

def onClangTidyModeChanged (w : ClangDiagnosticConfigsWidget) (index : Int) :
    Option ClangDiagnosticConfigsWidget :=
  match selectedConfig w with
  | none => none
  | some config =>
    let config := { config with clangTidyMode := index }
    let w1 := updateConfig w config
    some (syncClangTidyWidgets w1 config)

/-- `Qt::CheckState`. -/
inductive CheckState where
  | Unchecked
  | PartiallyChecked
  | Checked
  deriving DecidableEq, Repr

/-- A `QListWidgetItem` of the list of clang-tidy checks: its text, the two item
flags that `syncTidyChecksList` writes, and its check state. -/
structure QListWidgetItem where
  text : QString
  itemIsUserCheckable : Bool
  itemIsEnabled : Bool
  checkState : CheckState
  deriving DecidableEq, Repr

/-- The stored string that `onClangTidyItemChanged` computes from the stored
string `checks` for an item. -/
def clangTidyItemChangedChecks (checks : QString) (item : QListWidgetItem) : QString :=
  let pfx := item.text
  if item.checkState = CheckState.Checked then
    checks ++ (',' :: pfx)
  else
    QString.remove checks (',' :: pfx)

def onClangTidyItemChanged (w : ClangDiagnosticConfigsWidget) (item : QListWidgetItem) :
    Option ClangDiagnosticConfigsWidget :=
  match selectedConfig w with
  | none => none
  | some config =>
    let checks := clangTidyItemChangedChecks config.clangTidyChecksPrefixes item
    let config := { config with clangTidyChecksPrefixes := checks }
    some (updateConfig w config)

def onClangTidyLineEdited (w : ClangDiagnosticConfigsWidget) (text : QString) :
    Option ClangDiagnosticConfigsWidget :=
  match selectedConfig w with
  | none => none
  | some config =>
    let config := { config with clangTidyChecksString := text }
    some (updateConfig w config)

/-- The check states of the five radio buttons of the Clazy tab. -/
structure ClazyRadioButtons where
  clazyRadioDisabled : Bool
  clazyRadioLevel0 : Bool
  clazyRadioLevel1 : Bool
  clazyRadioLevel2 : Bool
  clazyRadioLevel3 : Bool
  deriving DecidableEq, Repr

def onClazyRadioButtonChanged (w : ClangDiagnosticConfigsWidget) (checked : Bool)
    (m_clazyChecks : ClazyRadioButtons) : Option ClangDiagnosticConfigsWidget :=
  if !checked then
    some w
  else
    let checks : QString :=
      if m_clazyChecks.clazyRadioDisabled then []
      else if m_clazyChecks.clazyRadioLevel0 then "level0".toList
      else if m_clazyChecks.clazyRadioLevel1 then "level1".toList
      else if m_clazyChecks.clazyRadioLevel2 then "level2".toList
      else if m_clazyChecks.clazyRadioLevel3 then "level3".toList
      else []
    match selectedConfig w with
    | none => none
    | some config =>
      let config := { config with clazyChecks := checks }
      some (updateConfig w config)

/-- `onDiagnosticOptionsEdited`; the edited text is the plain text of the text
edit. -/
def onDiagnosticOptionsEdited (noDiagnosticCheck : Int) (w : ClangDiagnosticConfigsWidget) :
    Option ClangDiagnosticConfigsWidget :=
  let diagnosticOptions := w.diagnosticOptionsTextEdit
  let normalizedOptions := normalizeDiagnosticInputOptions diagnosticOptions
  let errorMessage := validateDiagnosticOptions noDiagnosticCheck normalizedOptions
  let w1 := updateValidityWidgets w errorMessage
  if !errorMessage.isEmpty then
    match selectedConfigId w1 with
    | none => none
    | some id =>
      some { w1 with
        m_notAcceptedOptions := hashInsert w1.m_notAcceptedOptions id diagnosticOptions }
  else
    match selectedConfigId w1 with
    | none => none
    | some id =>
      let w2 := { w1 with m_notAcceptedOptions := hashRemove w1.m_notAcceptedOptions id }
      match selectedConfig w2 with
      | none => none
      | some updatedConfig =>
        let updatedConfig := { updatedConfig with clangOptions := normalizedOptions }
        some (updateConfig w2 updatedConfig)

/-- `syncTidyChecksList` on the items of the list of checks. -/
def syncTidyChecksList (config : ClangDiagnosticConfig) (items : List QListWidgetItem) :
    List QListWidgetItem :=
  let tidyChecks := config.clangTidyChecksPrefixes
  items.map (fun item =>
    { item with
      itemIsUserCheckable := true
      itemIsEnabled := !config.isReadOnly
      checkState :=
        if QString.indexOf tidyChecks item.text ≠ -1 then CheckState.Checked
        else CheckState.Unchecked })

/-- The slots that edit the selected configuration, with their arguments. -/
inductive EditSlot where
  | diagnosticOptionsEdited
  | clangTidyModeChanged (index : Int)
  | clangTidyItemChanged (item : QListWidgetItem)
  | clangTidyLineEdited (text : QString)
  | clazyRadioButtonChanged (checked : Bool) (m_clazyChecks : ClazyRadioButtons)

/-- One run of an edit slot. -/
def runEditSlot (noDiagnosticCheck : Int) (w : ClangDiagnosticConfigsWidget) :
    EditSlot → Option ClangDiagnosticConfigsWidget
  | EditSlot.diagnosticOptionsEdited => onDiagnosticOptionsEdited noDiagnosticCheck w
  | EditSlot.clangTidyModeChanged index => onClangTidyModeChanged w index
  | EditSlot.clangTidyItemChanged item => onClangTidyItemChanged w item
  | EditSlot.clangTidyLineEdited text => onClangTidyLineEdited w text
  | EditSlot.clazyRadioButtonChanged checked m_clazyChecks =>
    onClazyRadioButtonChanged w checked m_clazyChecks

/-- The operations of the widget that change the model: an accepted copy with
the entered name and the generated id, a removal, and the edit slots. -/
inductive Operation where
  | copy (newName : QString) (uuid : Core.Id)
  | remove
  | edit (slot : EditSlot)

/-- One run of an operation. -/
def runOperation (displayNameWithBuiltinIndication : ClangDiagnosticConfig → QString)
    (noDiagnosticCheck : Int) (w : ClangDiagnosticConfigsWidget) :
    Operation → Option ClangDiagnosticConfigsWidget
  | Operation.copy newName uuid =>
    onCopyButtonClicked displayNameWithBuiltinIndication noDiagnosticCheck w true newName uuid
  | Operation.remove => onRemoveButtonClicked displayNameWithBuiltinIndication noDiagnosticCheck w
  | Operation.edit slot => runEditSlot noDiagnosticCheck w slot

/-- Tells whether a run of the operation reaches its `emit`: a copy and a
removal always do, `onDiagnosticOptionsEdited` does when the validation message
is empty, `onClazyRadioButtonChanged` does when `checked` holds, the other edit
slots always do. -/
def reachesEmit (noDiagnosticCheck : Int)
    (w : ClangDiagnosticConfigsWidget) : ClangDiagnosticConfigsWidget.Operation → Bool
  | Operation.edit EditSlot.diagnosticOptionsEdited =>
    (validateDiagnosticOptions noDiagnosticCheck
      (normalizeDiagnosticInputOptions w.diagnosticOptionsTextEdit)).isEmpty
  | Operation.edit (EditSlot.clazyRadioButtonChanged checked _) => checked
  | _ => true

/-- The ids of the configurations of the model, in model order. -/
def modelIds (w : ClangDiagnosticConfigsWidget) : List Core.Id :=
  w.m_diagnosticConfigsModel.map (fun config => config.id)

end ClangDiagnosticConfigsWidget

/-! ## Definitions that follow the specification -/

/-- A text cut at every white space character; the parts may be empty. -/
def splitAtWhitespace : QString → QStringList
  | [] => [[]]
  | c :: cs =>
    if QChar.isSpace c then [] :: splitAtWhitespace cs
    else
      match splitAtWhitespace cs with
      | [] => [[c]]
      | t :: ts => (c :: t) :: ts

/-- The maximal white-space-free tokens of a text, in their original order: the
non-empty parts between its white space characters. -/
def whitespaceFreeTokens (text : QString) : QStringList :=
  (splitAtWhitespace text).filter (fun t => !t.isEmpty)

/-- The list `tokens` is the list of the maximal white-space-free tokens of
`text` in their order: `text` is white space, the first token, and a rest that
is empty or starts with a white space character and holds the other tokens in
the same way; a token is not empty and has no white space character. -/
def IsTokenization : QString → QStringList → Prop
  | text, [] => ∀ c ∈ text, QChar.isSpace c = true
  | text, t :: ts =>
    ∃ gap rest, text = gap ++ t ++ rest
      ∧ (∀ c ∈ gap, QChar.isSpace c = true)
      ∧ t ≠ []
      ∧ (∀ c ∈ t, QChar.isSpace c = false)
      ∧ (rest = [] ∨ ∃ c r, rest = c :: r ∧ QChar.isSpace c = true)
      ∧ IsTokenization rest ts

/-- The stored prefix string of a list of checked entries: every entry behind
a comma, as `onClangTidyItemChanged` appends them. -/
def prefixesString : List QString → QString
  | [] => []
  | q :: qs => ',' :: (q ++ prefixesString qs)

/-! ## Concrete inputs -/

/-- A built-in, read-only configuration. -/
def exampleBuiltinConfig : ClangDiagnosticConfig :=
  { id := 1
    displayName := "Warnings for questionable constructs".toList
    clangOptions := ["-Wall".toList, "-Wextra".toList]
    clangTidyMode := 0
    clangTidyChecksPrefixes := []
    clangTidyChecksString := []
    clazyChecks := []
    isReadOnly := true }

/-- A custom configuration. -/
def exampleCustomConfig : ClangDiagnosticConfig :=
  { id := 7
    displayName := "Mine".toList
    clangOptions := ["-Wall".toList]
    clangTidyMode := 0
    clangTidyChecksPrefixes := []
    clangTidyChecksString := []
    clazyChecks := []
    isReadOnly := false }

/-- A widget on the model of the built-in and the custom configuration, with
the given selected index and the given text in the text edit. -/
def exampleWidget (index : Int) (text : QString) : ClangDiagnosticConfigsWidget :=
  { m_diagnosticConfigsModel := [exampleBuiltinConfig, exampleCustomConfig]
    m_selectedConfigIndex := index
    m_notAcceptedOptions := fun _ => none
    configChooserList :=
      ["Warnings for questionable constructs [built-in]".toList, "Mine".toList]
    configChooserCurrentRow := index
    removeButtonEnabled := false
    infoIcon := Icon.INFO
    infoLabelText := []
    infoLabelStyleSheet := []
    diagnosticOptionsTextEdit := text
    clangBaseChecksWidgetEnabled := false
    tidyChecksWidgetEnabled := false
    clazyChecksWidgetEnabled := false
    customConfigsChanged := [] }

/-- The example widget with the custom configuration selected and the given
stored prefix string in it. -/
def exampleTidyWidget (checks : QString) : ClangDiagnosticConfigsWidget :=
  { exampleWidget 1 [] with
    m_diagnosticConfigsModel :=
      [exampleBuiltinConfig, { exampleCustomConfig with clangTidyChecksPrefixes := checks }] }

/-- An enabled item of the list of checks. -/
def exampleItem (text : QString) (checkState : ClangDiagnosticConfigsWidget.CheckState) :
    ClangDiagnosticConfigsWidget.QListWidgetItem :=
  { text := text, itemIsUserCheckable := true, itemIsEnabled := true, checkState := checkState }

/-! ## Validation: proofs -/

theorem isAcceptedWarningOption_iff (o : QString) :
    isAcceptedWarningOption o = true ↔
      (o = "-w".toList ∨ o = "-pedantic".toList ∨ o = "-pedantic-errors".toList) := by
  simp [isAcceptedWarningOption, or_assoc]

theorem isValidOption_iff (o : QString) :
    isValidOption o = true ↔
      (o ≠ "-Werror".toList ∧
        ("-W".toList <+: o ∨ o = "-w".toList ∨ o = "-pedantic".toList
          ∨ o = "-pedantic-errors".toList)) := by
  unfold isValidOption
  by_cases h : o = "-Werror".toList
  · simp [h]
  · have hb : (o == "-Werror".toList) = false := by simpa using h
    rw [hb]
    simp only [Bool.false_eq_true, if_false, Bool.or_eq_true, QString.startsWith,
      List.isPrefixOf_iff_prefix, isAcceptedWarningOption_iff]
    exact ⟨fun hv => ⟨h, hv⟩, fun hv => hv.2⟩

theorem arg_invalidOption (o : QString) :
    QString.arg "Option \"%1\" is invalid.".toList o
      = "Option \"".toList ++ o ++ "\" is invalid.".toList := by
  simp [QString.arg]

theorem arg_percent_one (m : QString) : QString.arg "%1".toList m = m := by
  simp [QString.arg]

theorem validateLoop_eq_nil_iff (options : QStringList) :
    validateDiagnosticOptionsLoop options = [] ↔ ∀ o ∈ options, isValidOption o = true := by
  induction options with
  | nil => simp [validateDiagnosticOptionsLoop]
  | cons o rest ih =>
    unfold validateDiagnosticOptionsLoop
    by_cases h : isValidOption o = true
    · simp [h, ih]
    · have hf : isValidOption o = false := by simpa using h
      have hm := arg_invalidOption o
      simp only [hf, Bool.not_false, if_true, hm]
      simp [hf]

/-- The message of the loop at the first option that is not valid. -/
theorem validateLoop_first_invalid (before after : QStringList) (x : QString)
    (hbefore : ∀ o ∈ before, isValidOption o = true) (hx : isValidOption x = false) :
    validateDiagnosticOptionsLoop (before ++ x :: after)
      = "Option \"".toList ++ x ++ "\" is invalid.".toList := by
  induction before with
  | nil =>
    have hm := arg_invalidOption x
    simp only [List.nil_append, validateDiagnosticOptionsLoop, hx, Bool.not_false, if_true, hm]
  | cons o rest ih =>
    have ho : isValidOption o = true := hbefore o (by simp)
    have hrest : ∀ o ∈ rest, isValidOption o = true := fun o h => hbefore o (by simp [h])
    simp [validateDiagnosticOptionsLoop, ho, ih hrest]

/-- C1. With validation enabled (the environment value is 0),
`validateDiagnosticOptions` returns the empty message exactly when every option
differs from "-Werror" and starts with "-W" or is one of "-w", "-pedantic",
"-pedantic-errors"; the empty list is accepted, "-Werror" is rejected, and every
other string that starts with "-W" is accepted. -/
theorem validateDiagnosticOptions_accepts_iff :
    (∀ options : QStringList,
      validateDiagnosticOptions 0 options = [] ↔
        ∀ o ∈ options, o ≠ "-Werror".toList ∧
          ("-W".toList <+: o ∨ o = "-w".toList ∨ o = "-pedantic".toList
            ∨ o = "-pedantic-errors".toList))
    ∧ validateDiagnosticOptions 0 [] = []
    ∧ validateDiagnosticOptions 0 ["-Werror".toList] ≠ []
    ∧ validateDiagnosticOptions 0 ["-Werror=x".toList] = []
    ∧ (∀ o : QString, "-W".toList <+: o → o ≠ "-Werror".toList →
        validateDiagnosticOptions 0 [o] = []) := by
  have main : ∀ options : QStringList,
      validateDiagnosticOptions 0 options = [] ↔
        ∀ o ∈ options, o ≠ "-Werror".toList ∧
          ("-W".toList <+: o ∨ o = "-w".toList ∨ o = "-pedantic".toList
            ∨ o = "-pedantic-errors".toList) := by
    intro options
    simp only [validateDiagnosticOptions, ne_eq, not_true_eq_false, if_false,
      validateLoop_eq_nil_iff, isValidOption_iff]
  refine ⟨main, by decide, by decide, by decide, ?_⟩
  intro o hp hne
  rw [main]
  intro o' ho'
  simp only [List.mem_singleton] at ho'
  subst ho'
  exact ⟨hne, Or.inl hp⟩

/-! ## Normalisation: proofs -/

theorem splitKeepEmptyParts_ne_nil (sep : Char) (s : QString) :
    QString.splitKeepEmptyParts sep s ≠ [] := by
  cases s with
  | nil => simp [QString.splitKeepEmptyParts]
  | cons c cs =>
    unfold QString.splitKeepEmptyParts
    split
    · simp
    · split <;> simp

theorem splitKeepEmptyParts_append_sep (sep : Char) (a b : QString) :
    QString.splitKeepEmptyParts sep (a ++ sep :: b)
      = QString.splitKeepEmptyParts sep a ++ QString.splitKeepEmptyParts sep b := by
  induction a with
  | nil => simp [QString.splitKeepEmptyParts]
  | cons c cs ih =>
    by_cases h : c = sep
    · simp [QString.splitKeepEmptyParts, h, ih]
    · simp only [List.cons_append, QString.splitKeepEmptyParts, h, if_false]
      cases hk : QString.splitKeepEmptyParts sep cs with
      | nil => exact absurd hk (splitKeepEmptyParts_ne_nil sep cs)
      | cons w ws => simp [ih, hk]

theorem split_dropLast_sep (sep : Char) (r : QString) (h : r.getLast? = some sep) :
    QString.split r.dropLast sep = QString.split r sep := by
  obtain ⟨r0, rfl⟩ : ∃ r0, r = r0 ++ [sep] := by
    rcases List.eq_nil_or_concat r with h0 | ⟨r0, x, h0⟩
    · simp [h0] at h
    · subst h0
      simp at h
      exact ⟨r0, by simp [h]⟩
  simp [QString.split, splitKeepEmptyParts_append_sep, QString.splitKeepEmptyParts]

theorem isSpace_space : QChar.isSpace ' ' = true := by decide

/-- The loop of `simplified` followed by the split at spaces, against the split
at white space: after a copied character the first parts agree and the later
parts agree up to empty ones; at the start of a word all parts agree up to empty
ones. -/
theorem split_simplifiedLoop (s : QString) :
    (∃ t ts ts1,
      QString.splitKeepEmptyParts ' ' (QString.simplifiedLoop true s) = t :: ts
        ∧ splitAtWhitespace s = t :: ts1
        ∧ ts.filter (fun p => !p.isEmpty) = ts1.filter (fun p => !p.isEmpty))
    ∧ (QString.splitKeepEmptyParts ' ' (QString.simplifiedLoop false s)).filter
          (fun p => !p.isEmpty)
        = (splitAtWhitespace s).filter (fun p => !p.isEmpty) := by
  induction s with
  | nil =>
    refine ⟨⟨[], [], [], ?_, ?_, rfl⟩, ?_⟩ <;>
      simp [QString.simplifiedLoop, QString.splitKeepEmptyParts, splitAtWhitespace]
  | cons c cs ih =>
    obtain ⟨⟨t, ts, ts1, h1, h2, h3⟩, h0⟩ := ih
    by_cases hc : QChar.isSpace c = true
    · refine ⟨⟨[], _, _, ?_, ?_, h0⟩, ?_⟩
      · simp [QString.simplifiedLoop, hc, QString.splitKeepEmptyParts]
      · simp [splitAtWhitespace, hc]
      · simp [QString.simplifiedLoop, hc, splitAtWhitespace, h0]
    · have hne : c ≠ ' ' := by
        intro h
        subst h
        exact hc isSpace_space
      refine ⟨⟨c :: t, ts, ts1, ?_, ?_, h3⟩, ?_⟩
      · simp [QString.simplifiedLoop, hc, QString.splitKeepEmptyParts, hne, h1]
      · simp [splitAtWhitespace, hc, h2]
      · simp [QString.simplifiedLoop, hc, QString.splitKeepEmptyParts, hne, h1,
          splitAtWhitespace, h2, h3]

/-- The normalised options are the maximal white-space-free tokens of the text. -/
theorem normalize_eq_tokens (text : QString) :
    normalizeDiagnosticInputOptions text = whitespaceFreeTokens text := by
  unfold normalizeDiagnosticInputOptions QString.simplified whitespaceFreeTokens
  have h := (split_simplifiedLoop text).2
  simp only
  split
  · rename_i hl
    rw [split_dropLast_sep _ _ hl]
    exact h
  · exact h

theorem splitAtWhitespace_no_space (text : QString) :
    ∀ t ∈ splitAtWhitespace text, ∀ c ∈ t, QChar.isSpace c = false := by
  induction text with
  | nil => simp [splitAtWhitespace]
  | cons c cs ih =>
    unfold splitAtWhitespace
    by_cases hc : QChar.isSpace c = true
    · simp only [hc, if_true]
      intro t ht
      rcases List.mem_cons.1 ht with h | h
      · simp [h]
      · exact ih t h
    · have hf : QChar.isSpace c = false := by simpa using hc
      simp only [hf, Bool.false_eq_true, if_false]
      cases hk : splitAtWhitespace cs with
      | nil => simp [hf]
      | cons t0 ts =>
        intro t ht
        rcases List.mem_cons.1 ht with h | h
        · subst h
          intro d hd
          rcases List.mem_cons.1 hd with h' | h'
          · simpa [h'] using hf
          · exact ih t0 (by simp [hk]) d h'
        · exact ih t (by simp [hk, h])

theorem tokens_nonempty_no_space (text : QString) :
    ∀ t ∈ whitespaceFreeTokens text, t ≠ [] ∧ ∀ c ∈ t, QChar.isSpace c = false := by
  intro t ht
  simp only [whitespaceFreeTokens, List.mem_filter] at ht
  refine ⟨?_, splitAtWhitespace_no_space text t ht.1⟩
  intro h
  simp [h] at ht

theorem isTokenization_cons_space (c : Char) (text : QString) (tokens : QStringList)
    (hc : QChar.isSpace c = true) (h : IsTokenization text tokens) :
    IsTokenization (c :: text) tokens := by
  cases tokens with
  | nil =>
    intro d hd
    rcases List.mem_cons.1 hd with h1 | h1
    · rw [h1]; exact hc
    · exact h d h1
  | cons t ts =>
    obtain ⟨gap, rest, h1, h2, h3⟩ := h
    refine ⟨c :: gap, rest, by simp [h1], ?_, h3⟩
    intro d hd
    rcases List.mem_cons.1 hd with h4 | h4
    · rw [h4]; exact hc
    · exact h2 d h4

/-- The first part of a text cut at white space is empty exactly when the text
is empty or starts with a white space character. -/
theorem splitAtWhitespace_head (text : QString) :
    ∃ t ts, splitAtWhitespace text = t :: ts
      ∧ ((t = [] ∧ (text = [] ∨ ∃ d r, text = d :: r ∧ QChar.isSpace d = true))
        ∨ (t ≠ [] ∧ ∃ d r, text = d :: r ∧ QChar.isSpace d = false)) := by
  cases text with
  | nil => exact ⟨[], [], rfl, Or.inl ⟨rfl, Or.inl rfl⟩⟩
  | cons d r =>
    unfold splitAtWhitespace
    by_cases hd : QChar.isSpace d = true
    · exact ⟨[], splitAtWhitespace r, by simp [hd], Or.inl ⟨rfl, Or.inr ⟨d, r, rfl, hd⟩⟩⟩
    · have hf : QChar.isSpace d = false := by simpa using hd
      cases hk : splitAtWhitespace r with
      | nil => exact ⟨[d], [], by simp [hf], Or.inr ⟨by simp, d, r, rfl, hf⟩⟩
      | cons t0 ts0 =>
        exact ⟨d :: t0, ts0, by simp [hf], Or.inr ⟨by simp, d, r, rfl, hf⟩⟩

/-- The maximal white-space-free tokens computed by `whitespaceFreeTokens`
satisfy the declarative description of a tokenization. -/
theorem isTokenization_tokens (text : QString) :
    IsTokenization text (whitespaceFreeTokens text) := by
  induction text with
  | nil =>
    intro c hc
    cases hc
  | cons c cs ih =>
    by_cases hc : QChar.isSpace c = true
    · have heq : whitespaceFreeTokens (c :: cs) = whitespaceFreeTokens cs := by
        simp [whitespaceFreeTokens, splitAtWhitespace, hc]
      rw [heq]
      exact isTokenization_cons_space c cs _ hc ih
    · have hf : QChar.isSpace c = false := by simpa using hc
      obtain ⟨t0, ts0, hsplit, hhead⟩ := splitAtWhitespace_head cs
      have heq : whitespaceFreeTokens (c :: cs)
          = (c :: t0) :: ts0.filter (fun t => !t.isEmpty) := by
        simp [whitespaceFreeTokens, splitAtWhitespace, hf, hsplit]
      have hno := splitAtWhitespace_no_space cs t0 (by simp [hsplit])
      rw [heq]
      rcases hhead with ⟨ht0, hcs⟩ | ⟨ht0, d, r, hcs, hd⟩
      · subst ht0
        have hih : whitespaceFreeTokens cs = ts0.filter (fun t => !t.isEmpty) := by
          simp [whitespaceFreeTokens, hsplit]
        rw [hih] at ih
        refine ⟨[], cs, by simp, by simp, by simp, ?_, ?_, ih⟩
        · intro x hx
          simp only [List.mem_singleton] at hx
          rw [hx]; exact hf
        · rcases hcs with h | ⟨d, r, h, hd⟩
          · exact Or.inl h
          · exact Or.inr ⟨d, r, h, hd⟩
      · have hih : whitespaceFreeTokens cs = t0 :: ts0.filter (fun t => !t.isEmpty) := by
          cases t0 with
          | nil => exact absurd rfl ht0
          | cons a l => simp [whitespaceFreeTokens, hsplit]
        rw [hih] at ih
        obtain ⟨gap, rest, h1, h2, h3, h4, h5, h6⟩ := ih
        have hgap : gap = [] := by
          cases gap with
          | nil => rfl
          | cons g gs =>
            exfalso
            rw [hcs] at h1
            simp only [List.cons_append, List.cons.injEq] at h1
            have := h2 g (by simp)
            rw [← h1.1, hd] at this
            exact Bool.false_ne_true this
        subst hgap
        refine ⟨[], rest, by simp [h1], by simp, by simp, ?_, h5, h6⟩
        intro x hx
        rcases List.mem_cons.1 hx with h7 | h7
        · rw [h7]; exact hf
        · exact hno x h7

/-! ## The model: proofs -/

namespace ClangDiagnosticConfigsWidget

theorem appendOrUpdate_eq_set (m : ClangDiagnosticConfigsModel) (i : Nat)
    (c config : ClangDiagnosticConfig) (hget : m[i]? = some c) (hid : config.id = c.id)
    (hnodup : (m.map (fun x => x.id)).Nodup) :
    ClangDiagnosticConfigsModel.appendOrUpdate m config = m.set i config := by
  induction m generalizing i with
  | nil => simp at hget
  | cons d ds ih =>
    cases i with
    | zero =>
      simp only [List.getElem?_cons_zero, Option.some.injEq] at hget
      subst hget
      simp [ClangDiagnosticConfigsModel.appendOrUpdate, hid]
    | succ j =>
      simp only [List.getElem?_cons_succ] at hget
      simp only [List.map_cons, List.nodup_cons] at hnodup
      have hne : d.id ≠ config.id := by
        intro h
        apply hnodup.1
        rw [h, hid]
        exact List.mem_map.2 ⟨c, List.getElem?_mem hget, rfl⟩
      simp [ClangDiagnosticConfigsModel.appendOrUpdate, hne, ih j hget hnodup.2]

theorem selectedConfig_eq_some (w : ClangDiagnosticConfigsWidget) (c : ClangDiagnosticConfig)
    (h : selectedConfig w = some c) :
    0 ≤ w.m_selectedConfigIndex ∧
      w.m_diagnosticConfigsModel[w.m_selectedConfigIndex.toNat]? = some c := by
  unfold selectedConfig ClangDiagnosticConfigsModel.configAt at h
  by_cases h0 : 0 ≤ w.m_selectedConfigIndex
  · simpa [h0] using h
  · simp [h0] at h

/-- The slot on a text with an option that fails validation. -/
theorem onDiagnosticOptionsEdited_of_error (env : Int) (w : ClangDiagnosticConfigsWidget)
    (c : ClangDiagnosticConfig) (hsel : selectedConfig w = some c)
    (herr : validateDiagnosticOptions env
      (normalizeDiagnosticInputOptions w.diagnosticOptionsTextEdit) ≠ []) :
    onDiagnosticOptionsEdited env w
      = some { updateValidityWidgets w (validateDiagnosticOptions env
            (normalizeDiagnosticInputOptions w.diagnosticOptionsTextEdit)) with
          m_notAcceptedOptions :=
            hashInsert w.m_notAcceptedOptions c.id w.diagnosticOptionsTextEdit } := by
  have hsel1 : ∀ m, selectedConfig (updateValidityWidgets w m) = some c := by
    intro m
    unfold updateValidityWidgets
    split <;> simpa [selectedConfig] using hsel
  have hna : ∀ m, (updateValidityWidgets w m).m_notAcceptedOptions = w.m_notAcceptedOptions := by
    intro m
    unfold updateValidityWidgets
    split <;> rfl
  have he : (validateDiagnosticOptions env
      (normalizeDiagnosticInputOptions w.diagnosticOptionsTextEdit)).isEmpty = false := by
    simpa [List.isEmpty_iff] using herr
  simp only [onDiagnosticOptionsEdited, he, Bool.not_false, if_true, selectedConfigId, hsel1,
    Option.map_some', hna]

/-- The slot on a text whose options all pass validation. -/
theorem onDiagnosticOptionsEdited_of_valid (env : Int) (w : ClangDiagnosticConfigsWidget)
    (c : ClangDiagnosticConfig) (hsel : selectedConfig w = some c)
    (hok : validateDiagnosticOptions env
      (normalizeDiagnosticInputOptions w.diagnosticOptionsTextEdit) = []) :
    onDiagnosticOptionsEdited env w
      = some (updateConfig
          { updateValidityWidgets w [] with
            m_notAcceptedOptions := hashRemove w.m_notAcceptedOptions c.id }
          { c with clangOptions :=
              normalizeDiagnosticInputOptions w.diagnosticOptionsTextEdit }) := by
  have hsel1 : selectedConfig (updateValidityWidgets w []) = some c := by
    simpa [updateValidityWidgets, selectedConfig] using hsel
  have hsel2 : ∀ f, selectedConfig
      { updateValidityWidgets w [] with m_notAcceptedOptions := f } = some c := by
    intro f
    simpa [updateValidityWidgets, selectedConfig] using hsel
  have hna : (updateValidityWidgets w []).m_notAcceptedOptions = w.m_notAcceptedOptions := rfl
  simp only [onDiagnosticOptionsEdited, hok, List.isEmpty_nil, Bool.not_true,
    Bool.false_eq_true, if_false, selectedConfigId, hsel1, Option.map_some', hna, hsel2]

/-! ## Editing the diagnostic options: the status label -/

/-- C2, as amended. With validation enabled (the environment value is 0), in a
widget whose selected index is in the model, `onDiagnosticOptionsEdited`
returns, and afterwards the status label shows "Configuration passes sanity
checks." with an empty style sheet when every normalised option is valid, and
the message 'Option "X" is invalid.' with the style "color: red;" when X is the
first normalised option that is not valid. -/
theorem onDiagnosticOptionsEdited_status_label (w : ClangDiagnosticConfigsWidget)
    (c : ClangDiagnosticConfig) (hsel : selectedConfig w = some c) :
    ∃ w1, onDiagnosticOptionsEdited 0 w = some w1 ∧
      ((∀ o ∈ normalizeDiagnosticInputOptions w.diagnosticOptionsTextEdit,
          isValidOption o = true) →
        w1.infoLabelText = "Configuration passes sanity checks.".toList
          ∧ w1.infoLabelStyleSheet = []) ∧
      (∀ (before after : QStringList) (x : QString),
        normalizeDiagnosticInputOptions w.diagnosticOptionsTextEdit = before ++ x :: after →
        (∀ o ∈ before, isValidOption o = true) → isValidOption x = false →
        w1.infoLabelText = "Option \"".toList ++ x ++ "\" is invalid.".toList
          ∧ w1.infoLabelStyleSheet = "color: red;".toList) := by
  by_cases hok : validateDiagnosticOptions 0
      (normalizeDiagnosticInputOptions w.diagnosticOptionsTextEdit) = []
  · refine ⟨_, onDiagnosticOptionsEdited_of_valid 0 w c hsel hok, ?_, ?_⟩
    · intro _
      exact ⟨rfl, rfl⟩
    · intro before after x hsplit hbefore hx
      exfalso
      have hall := (validateLoop_eq_nil_iff _).1
        (by simpa [validateDiagnosticOptions] using hok)
      have := hall x (by rw [hsplit]; simp)
      rw [hx] at this
      exact Bool.false_ne_true this
  · refine ⟨_, onDiagnosticOptionsEdited_of_error 0 w c hsel hok, ?_, ?_⟩
    · intro hall
      exfalso
      apply hok
      simpa [validateDiagnosticOptions] using (validateLoop_eq_nil_iff _).2 hall
    · intro before after x hsplit hbefore hx
      have hmsg : validateDiagnosticOptions 0
          (normalizeDiagnosticInputOptions w.diagnosticOptionsTextEdit)
            = "Option \"".toList ++ x ++ "\" is invalid.".toList := by
        rw [hsplit]
        simpa [validateDiagnosticOptions] using validateLoop_first_invalid before after x hbefore hx
      have hne : ("Option \"".toList ++ x ++ "\" is invalid.".toList).isEmpty = false := by
        simp
      simp only [hmsg, updateValidityWidgets, hne, Bool.false_eq_true, if_false,
        arg_percent_one, and_self]

/-- C2: the amended statement at the text "-Wall  foo bar", whose first option
that is not valid is "foo". -/
theorem onDiagnosticOptionsEdited_status_label_witness :
    ∃ w1, onDiagnosticOptionsEdited 0 (exampleWidget 1 "-Wall  foo bar".toList) = some w1 ∧
      w1.infoLabelText = "Option \"foo\" is invalid.".toList
        ∧ w1.infoLabelStyleSheet = "color: red;".toList := by
  obtain ⟨w1, h1, _, h3⟩ :=
    onDiagnosticOptionsEdited_status_label (exampleWidget 1 "-Wall  foo bar".toList)
      exampleCustomConfig (by decide)
  exact ⟨w1, h1, h3 ["-Wall".toList] ["bar".toList] "foo".toList (by decide) (by decide)
    (by decide)⟩

/-- C2 as stated fails when validation is disabled: with the environment value
1 the text "foo", whose only option is not valid, leaves the label at
"Configuration passes sanity checks." with an empty style sheet, and not at
'Option "foo" is invalid.'. -/
theorem onDiagnosticOptionsEdited_status_label_counterexample :
    normalizeDiagnosticInputOptions "foo".toList = ["foo".toList]
    ∧ isValidOption "foo".toList = false
    ∧ ∃ w1, onDiagnosticOptionsEdited 1 (exampleWidget 1 "foo".toList) = some w1
        ∧ w1.infoLabelText = "Configuration passes sanity checks.".toList
        ∧ w1.infoLabelStyleSheet = []
        ∧ w1.infoLabelText ≠ "Option \"foo\" is invalid.".toList
        ∧ w1.infoLabelStyleSheet ≠ "color: red;".toList :=
  ⟨by decide, by decide, _, rfl, by decide, by decide, by decide, by decide⟩

/-! ## Editing the diagnostic options: rejected and accepted text -/

theorem syncOtherWidgetsToComboBox_shows_notAccepted (env : Int)
    (t : ClangDiagnosticConfigsWidget) (d : ClangDiagnosticConfig) (text : QString)
    (hsel : selectedConfig t = some d) (hna : t.m_notAcceptedOptions d.id = some text)
    (hlist : t.configChooserList ≠ []) :
    ∃ t1, syncOtherWidgetsToComboBox env t = some t1 ∧ t1.diagnosticOptionsTextEdit = text := by
  have hempty : isConfigChooserEmpty t = false := by
    cases hl : t.configChooserList with
    | nil => exact absurd hl hlist
    | cons a l => simp [isConfigChooserEmpty, hl]
  have hsel1 : selectedConfig { t with removeButtonEnabled := !d.isReadOnly } = some d := by
    simpa [selectedConfig] using hsel
  simp only [syncOtherWidgetsToComboBox, hempty, Bool.false_eq_true, if_false, hsel, hna]
  refine ⟨_, rfl, ?_⟩
  simp only [syncClazyWidgets, syncClangTidyWidgets, setDiagnosticOptions, updateValidityWidgets]
  by_cases h1 : text = t.diagnosticOptionsTextEdit <;> split <;> split <;> simp_all

/-- C3, as amended. With validation enabled (the environment value is 0), in a
widget whose selected index is in the model, for a text with a normalised
option that is not valid `onDiagnosticOptionsEdited` returns, leaves the model
and the selected index unchanged, emits no change notification, and records
the text as typed under the id of the selected configuration in the
not-accepted map (other ids keep their entry); whenever that configuration is
selected with this entry and a filled chooser list,
`syncOtherWidgetsToComboBox` puts that text into the text edit. -/
theorem onDiagnosticOptionsEdited_rejects (w : ClangDiagnosticConfigsWidget)
    (c : ClangDiagnosticConfig) (hsel : selectedConfig w = some c)
    (hinvalid : ∃ o ∈ normalizeDiagnosticInputOptions w.diagnosticOptionsTextEdit,
      isValidOption o = false) :
    ∃ w1, onDiagnosticOptionsEdited 0 w = some w1
      ∧ w1.m_diagnosticConfigsModel = w.m_diagnosticConfigsModel
      ∧ w1.m_selectedConfigIndex = w.m_selectedConfigIndex
      ∧ w1.customConfigsChanged = w.customConfigsChanged
      ∧ w1.m_notAcceptedOptions c.id = some w.diagnosticOptionsTextEdit
      ∧ (∀ k, k ≠ c.id → w1.m_notAcceptedOptions k = w.m_notAcceptedOptions k)
      ∧ (∀ (env : Int) (t : ClangDiagnosticConfigsWidget) (d : ClangDiagnosticConfig),
          selectedConfig t = some d → d.id = c.id →
          t.m_notAcceptedOptions c.id = w1.m_notAcceptedOptions c.id →
          t.configChooserList ≠ [] →
          ∃ t1, syncOtherWidgetsToComboBox env t = some t1
            ∧ t1.diagnosticOptionsTextEdit = w.diagnosticOptionsTextEdit) := by
  have herr : validateDiagnosticOptions 0
      (normalizeDiagnosticInputOptions w.diagnosticOptionsTextEdit) ≠ [] := by
    intro hok
    obtain ⟨o, ho, hv⟩ := hinvalid
    have hall := (validateLoop_eq_nil_iff _).1
      (by simpa [validateDiagnosticOptions] using hok)
    have := hall o ho
    rw [hv] at this
    exact Bool.false_ne_true this
  have hfields : ∀ m, (updateValidityWidgets w m).m_diagnosticConfigsModel
        = w.m_diagnosticConfigsModel
      ∧ (updateValidityWidgets w m).m_selectedConfigIndex = w.m_selectedConfigIndex
      ∧ (updateValidityWidgets w m).customConfigsChanged = w.customConfigsChanged := by
    intro m
    unfold updateValidityWidgets
    split <;> exact ⟨rfl, rfl, rfl⟩
  refine ⟨_, onDiagnosticOptionsEdited_of_error 0 w c hsel herr, (hfields _).1,
    (hfields _).2.1, (hfields _).2.2, ?_, ?_, ?_⟩
  · simp [hashInsert]
  · intro k hk
    simp [hashInsert, hk]
  · intro env t d hd hid hna hlist
    have hna1 : t.m_notAcceptedOptions d.id = some w.diagnosticOptionsTextEdit := by
      rw [hid, hna]
      simp [hashInsert]
    exact syncOtherWidgetsToComboBox_shows_notAccepted env t d _ hd hna1 hlist

/-- C3: the amended statement at the text " -Wall   foo", typed into the custom
configuration. -/
theorem onDiagnosticOptionsEdited_rejects_witness :
    ∃ w1, onDiagnosticOptionsEdited 0 (exampleWidget 1 " -Wall   foo".toList) = some w1
      ∧ w1.m_diagnosticConfigsModel = [exampleBuiltinConfig, exampleCustomConfig]
      ∧ w1.customConfigsChanged = []
      ∧ w1.m_notAcceptedOptions 7 = some " -Wall   foo".toList := by
  obtain ⟨w1, h1, h2, _, h4, h5, _⟩ :=
    onDiagnosticOptionsEdited_rejects (exampleWidget 1 " -Wall   foo".toList)
      exampleCustomConfig (by decide) ⟨"foo".toList, by decide, by decide⟩
  exact ⟨w1, h1, h2, h4, h5⟩

/-- C3 as stated fails when validation is disabled: with the environment value
1 the text "foo", whose only option is not valid, is committed. The custom
configuration gets the options ["foo"], a change notification is emitted, and
the not-accepted map has no entry for the id 7. -/
theorem onDiagnosticOptionsEdited_rejects_counterexample :
    (∃ o ∈ normalizeDiagnosticInputOptions "foo".toList, isValidOption o = false)
    ∧ ∃ w1, onDiagnosticOptionsEdited 1 (exampleWidget 1 "foo".toList) = some w1
        ∧ w1.m_diagnosticConfigsModel
            = [exampleBuiltinConfig, { exampleCustomConfig with clangOptions := ["foo".toList] }]
        ∧ w1.m_diagnosticConfigsModel ≠ (exampleWidget 1 "foo".toList).m_diagnosticConfigsModel
        ∧ w1.customConfigsChanged
            = [[{ exampleCustomConfig with clangOptions := ["foo".toList] }]]
        ∧ w1.m_notAcceptedOptions 7 = none :=
  ⟨⟨"foo".toList, by decide, by decide⟩, _, rfl, by decide, by decide, by decide, by decide⟩

/-- C4. In a widget whose selected index is in the model and whose ids are
unique, for a text whose normalised options pass validation
`onDiagnosticOptionsEdited` returns; the normalised options are the maximal
white-space-free tokens of the text in their order (they form a tokenization of
the text), none empty and none with a white space character; the model
afterwards is the old one with the selected
configuration replaced, at its position, by itself with these tokens as
compiler options (every other configuration and every other field is
unchanged); the not-accepted map loses the entry of the selected id and keeps
the others. -/
theorem onDiagnosticOptionsEdited_commits (env : Int) (w : ClangDiagnosticConfigsWidget)
    (c : ClangDiagnosticConfig) (hsel : selectedConfig w = some c)
    (hnodup : (modelIds w).Nodup)
    (hok : validateDiagnosticOptions env
      (normalizeDiagnosticInputOptions w.diagnosticOptionsTextEdit) = []) :
    ∃ w1, onDiagnosticOptionsEdited env w = some w1
      ∧ normalizeDiagnosticInputOptions w.diagnosticOptionsTextEdit
          = whitespaceFreeTokens w.diagnosticOptionsTextEdit
      ∧ IsTokenization w.diagnosticOptionsTextEdit
          (whitespaceFreeTokens w.diagnosticOptionsTextEdit)
      ∧ (∀ t ∈ whitespaceFreeTokens w.diagnosticOptionsTextEdit,
          t ≠ [] ∧ ∀ ch ∈ t, QChar.isSpace ch = false)
      ∧ w1.m_diagnosticConfigsModel
          = w.m_diagnosticConfigsModel.set w.m_selectedConfigIndex.toNat
              { c with clangOptions := whitespaceFreeTokens w.diagnosticOptionsTextEdit }
      ∧ w1.m_selectedConfigIndex = w.m_selectedConfigIndex
      ∧ selectedConfig w1
          = some { c with clangOptions := whitespaceFreeTokens w.diagnosticOptionsTextEdit }
      ∧ w1.m_diagnosticConfigsModel.length = w.m_diagnosticConfigsModel.length
      ∧ (∀ j : Nat, j ≠ w.m_selectedConfigIndex.toNat →
          w1.m_diagnosticConfigsModel[j]? = w.m_diagnosticConfigsModel[j]?)
      ∧ w1.m_notAcceptedOptions c.id = none
      ∧ (∀ k, k ≠ c.id → w1.m_notAcceptedOptions k = w.m_notAcceptedOptions k) := by
  obtain ⟨h0, hget⟩ := selectedConfig_eq_some w c hsel
  have hlt : w.m_selectedConfigIndex.toNat < w.m_diagnosticConfigsModel.length := by
    rcases Nat.lt_or_ge w.m_selectedConfigIndex.toNat w.m_diagnosticConfigsModel.length with h | h
    · exact h
    · rw [List.getElem?_eq_none h] at hget
      cases hget
  have hmodel : (updateConfig
        { updateValidityWidgets w [] with
          m_notAcceptedOptions := hashRemove w.m_notAcceptedOptions c.id }
        { c with clangOptions :=
            normalizeDiagnosticInputOptions w.diagnosticOptionsTextEdit }).m_diagnosticConfigsModel
      = w.m_diagnosticConfigsModel.set w.m_selectedConfigIndex.toNat
          { c with clangOptions := whitespaceFreeTokens w.diagnosticOptionsTextEdit } := by
    rw [← normalize_eq_tokens]
    exact appendOrUpdate_eq_set w.m_diagnosticConfigsModel _ c _ hget rfl hnodup
  refine ⟨_, onDiagnosticOptionsEdited_of_valid env w c hsel hok, normalize_eq_tokens _,
    isTokenization_tokens _, tokens_nonempty_no_space _, hmodel, rfl, ?_, ?_, ?_, ?_, ?_⟩
  · unfold selectedConfig
    rw [hmodel]
    show ClangDiagnosticConfigsModel.configAt _ w.m_selectedConfigIndex = _
    unfold ClangDiagnosticConfigsModel.configAt
    rw [if_pos h0]
    simp [hlt]
  · rw [hmodel]
    simp
  · intro j hj
    rw [hmodel]
    simp [List.getElem?_set, Ne.symm hj]
  · simp [updateConfig, updateValidityWidgets, hashRemove]
  · intro k hk
    simp [updateConfig, updateValidityWidgets, hashRemove, hk]

/-- C4: the statement at the text "  -Wall \t -Wextra\n-pedantic ", typed into
the custom configuration. -/
theorem onDiagnosticOptionsEdited_commits_witness :
    ∃ w1, onDiagnosticOptionsEdited 0
        (exampleWidget 1 "  -Wall \t -Wextra\n-pedantic ".toList) = some w1
      ∧ whitespaceFreeTokens "  -Wall \t -Wextra\n-pedantic ".toList
          = ["-Wall".toList, "-Wextra".toList, "-pedantic".toList]
      ∧ w1.m_diagnosticConfigsModel
          = [exampleBuiltinConfig,
              { exampleCustomConfig with
                clangOptions := ["-Wall".toList, "-Wextra".toList, "-pedantic".toList] }] := by
  obtain ⟨w1, h1, _, _, _, h4, _⟩ :=
    onDiagnosticOptionsEdited_commits 0
      (exampleWidget 1 "  -Wall \t -Wextra\n-pedantic ".toList) exampleCustomConfig
      (by decide) (by decide) (by decide)
  have htok : whitespaceFreeTokens "  -Wall \t -Wextra\n-pedantic ".toList
      = ["-Wall".toList, "-Wextra".toList, "-pedantic".toList] := by decide
  refine ⟨w1, h1, htok, ?_⟩
  rw [h4]
  show List.set [exampleBuiltinConfig, exampleCustomConfig] 1
      { exampleCustomConfig with
        clangOptions := whitespaceFreeTokens "  -Wall \t -Wextra\n-pedantic ".toList } = _
  rw [htok]
  rfl

/-! ## Synchronising the chooser list -/

theorem updateValidityWidgets_fields (w : ClangDiagnosticConfigsWidget) (m : QString) :
    (updateValidityWidgets w m).m_diagnosticConfigsModel = w.m_diagnosticConfigsModel
      ∧ (updateValidityWidgets w m).m_selectedConfigIndex = w.m_selectedConfigIndex
      ∧ (updateValidityWidgets w m).customConfigsChanged = w.customConfigsChanged
      ∧ (updateValidityWidgets w m).m_notAcceptedOptions = w.m_notAcceptedOptions
      ∧ (updateValidityWidgets w m).configChooserList = w.configChooserList := by
  unfold updateValidityWidgets
  split <;> exact ⟨rfl, rfl, rfl, rfl, rfl⟩

theorem setDiagnosticOptions_fields (env : Int) (w : ClangDiagnosticConfigsWidget)
    (options : QString) :
    (setDiagnosticOptions env w options).m_diagnosticConfigsModel = w.m_diagnosticConfigsModel
      ∧ (setDiagnosticOptions env w options).m_selectedConfigIndex = w.m_selectedConfigIndex
      ∧ (setDiagnosticOptions env w options).customConfigsChanged = w.customConfigsChanged
      ∧ (setDiagnosticOptions env w options).m_notAcceptedOptions = w.m_notAcceptedOptions
      ∧ (setDiagnosticOptions env w options).configChooserList = w.configChooserList := by
  unfold setDiagnosticOptions
  simp only
  split
  · exact updateValidityWidgets_fields _ _
  · exact updateValidityWidgets_fields _ _

/-- The slot `syncOtherWidgetsToComboBox` returns when the chooser list is
empty or the selected index is in the model, and it writes neither the model,
the selected index, the not-accepted map nor the log of notifications. -/
theorem syncOtherWidgetsToComboBox_fields (env : Int) (w : ClangDiagnosticConfigsWidget)
    (h : w.configChooserList = [] ∨ ∃ c, selectedConfig w = some c) :
    ∃ w1, syncOtherWidgetsToComboBox env w = some w1
      ∧ w1.m_diagnosticConfigsModel = w.m_diagnosticConfigsModel
      ∧ w1.m_selectedConfigIndex = w.m_selectedConfigIndex
      ∧ w1.customConfigsChanged = w.customConfigsChanged
      ∧ w1.m_notAcceptedOptions = w.m_notAcceptedOptions := by
  unfold syncOtherWidgetsToComboBox
  by_cases he : isConfigChooserEmpty w = true
  · simp only [he, if_true]
    exact ⟨w, rfl, rfl, rfl, rfl, rfl⟩
  · have hc : ∃ c, selectedConfig w = some c := by
      rcases h with h | h
      · exact absurd (by simp [isConfigChooserEmpty, h]) he
      · exact h
    obtain ⟨c, hc⟩ := hc
    simp only [he, Bool.false_eq_true, if_false, hc]
    refine ⟨_, rfl, ?_⟩
    obtain ⟨f1, f2, f3, f4, _⟩ := setDiagnosticOptions_fields env
      { w with removeButtonEnabled := !c.isReadOnly }
      (match w.m_notAcceptedOptions c.id with
        | some text => text
        | none => List.intercalate [' '] c.clangOptions)
    simp only [syncClazyWidgets, syncClangTidyWidgets]
    split <;> exact ⟨f1, f2, f3, f4⟩

theorem syncLoop_of_not_mem (id : Core.Id) (l : List ClangDiagnosticConfig) (i s : Int)
    (h : ∀ c ∈ l, c.id ≠ id) : syncConfigChooserToModelLoop id l i s = s := by
  induction l generalizing i s with
  | nil => rfl
  | cons d ds ih =>
    have hd : id ≠ d.id := fun e => h d (by simp) e.symm
    simp only [syncConfigChooserToModelLoop, beq_iff_eq, hd, if_false]
    exact ih _ _ (fun c hc => h c (by simp [hc]))

/-- When a configuration of the list has the id, the loop ends at the last row
with that id. -/
theorem syncLoop_of_mem (id : Core.Id) (l : List ClangDiagnosticConfig) (i s : Int)
    (h : ∃ c ∈ l, c.id = id) :
    ∃ j : Nat, syncConfigChooserToModelLoop id l i s = i + (j : Int)
      ∧ (∃ c, l[j]? = some c ∧ c.id = id)
      ∧ ∀ (k : Nat) (c : ClangDiagnosticConfig), j < k → l[k]? = some c → c.id ≠ id := by
  induction l generalizing i s with
  | nil => simp at h
  | cons d ds ih =>
    unfold syncConfigChooserToModelLoop
    by_cases hrest : ∃ c ∈ ds, c.id = id
    · obtain ⟨j, hj, hc, hlast⟩ := ih (i + 1) (if (id == d.id) = true then i else s) hrest
      refine ⟨j + 1, ?_, ?_, ?_⟩
      · rw [hj]
        push_cast
        ring
      · simpa using hc
      · intro k c hk hget
        cases k with
        | zero => omega
        | succ k' =>
          simp only [List.getElem?_cons_succ] at hget
          exact hlast k' c (by omega) hget
    · have hnone : ∀ c ∈ ds, c.id ≠ id := fun c hc e => hrest ⟨c, hc, e⟩
      have hd : d.id = id := by
        obtain ⟨c, hc, e⟩ := h
        rcases List.mem_cons.1 hc with h1 | h1
        · rw [← h1]; exact e
        · exact absurd e (hnone c h1)
      refine ⟨0, ?_, ⟨d, by simp, hd⟩, ?_⟩
      · rw [syncLoop_of_not_mem id ds _ _ hnone]
        simp [hd]
      · intro k c hk hget
        cases k with
        | zero => omega
        | succ k' =>
          simp only [List.getElem?_cons_succ] at hget
          exact hnone c (List.getElem?_mem hget)

/-- The slot `syncConfigChooserToModel` returns and writes neither the model,
the not-accepted map nor the log; the selected index is the one its loop
computes from the clamped previous index. -/
theorem syncConfigChooserToModel_fields (dn : ClangDiagnosticConfig → QString) (env : Int)
    (w : ClangDiagnosticConfigsWidget) (id : Core.Id) :
    ∃ w1, syncConfigChooserToModel dn env w id = some w1
      ∧ w1.m_diagnosticConfigsModel = w.m_diagnosticConfigsModel
      ∧ w1.customConfigsChanged = w.customConfigsChanged
      ∧ w1.m_notAcceptedOptions = w.m_notAcceptedOptions
      ∧ w1.m_selectedConfigIndex
          = syncConfigChooserToModelLoop id w.m_diagnosticConfigsModel 0
              (max (min w.m_selectedConfigIndex (w.m_diagnosticConfigsModel.size - 1)) 0) := by
  unfold syncConfigChooserToModel
  simp only
  split
  · rename_i hrange
    simp only [List.length_map] at hrange
    unfold onCurrentConfigChanged
    have hsel : ∃ c, selectedConfig
        { w with
          configChooserList := w.m_diagnosticConfigsModel.map dn
          configChooserCurrentRow := syncConfigChooserToModelLoop id w.m_diagnosticConfigsModel 0
            (max (min w.m_selectedConfigIndex (w.m_diagnosticConfigsModel.size - 1)) 0)
          m_selectedConfigIndex := syncConfigChooserToModelLoop id w.m_diagnosticConfigsModel 0
            (max (min w.m_selectedConfigIndex (w.m_diagnosticConfigsModel.size - 1)) 0) }
        = some c := by
      have hlt : (syncConfigChooserToModelLoop id w.m_diagnosticConfigsModel 0
            (max (min w.m_selectedConfigIndex (w.m_diagnosticConfigsModel.size - 1)) 0)).toNat
          < w.m_diagnosticConfigsModel.length := by omega
      simp only [selectedConfig, ClangDiagnosticConfigsModel.configAt, hrange.1, if_true]
      cases hget : w.m_diagnosticConfigsModel[(syncConfigChooserToModelLoop id
          w.m_diagnosticConfigsModel 0
          (max (min w.m_selectedConfigIndex (w.m_diagnosticConfigsModel.size - 1)) 0)).toNat]? with
      | none =>
        rw [List.getElem?_eq_none_iff] at hget
        omega
      | some c => exact ⟨c, rfl⟩
    obtain ⟨w1, h1, h2, h3, h4, h5⟩ := syncOtherWidgetsToComboBox_fields env _ (Or.inr hsel)
    exact ⟨w1, h1, h2, h4, h5, h3⟩
  · exact ⟨_, rfl, rfl, rfl, rfl, rfl⟩

theorem selectedConfig_of_getElem (w : ClangDiagnosticConfigsWidget) (j : Nat)
    (c : ClangDiagnosticConfig) (hidx : w.m_selectedConfigIndex = (j : Int))
    (hget : w.m_diagnosticConfigsModel[j]? = some c) : selectedConfig w = some c := by
  simp [selectedConfig, ClangDiagnosticConfigsModel.configAt, hidx, hget]

/-- C10. For every model that is not empty, every previous selected index and
every `configToSelect`, `syncConfigChooserToModel` returns with a selected
index i, 0 <= i < size of the model, at which `selectedConfig()` finds a
configuration. When the model has a configuration with the id `configToSelect`,
the one at i has that id (and no later row has it); otherwise i is the
previous index clamped to [0, size - 1]. -/
theorem syncConfigChooserToModel_selected_index (dn : ClangDiagnosticConfig → QString)
    (env : Int) (w : ClangDiagnosticConfigsWidget) (configToSelect : Core.Id)
    (hne : w.m_diagnosticConfigsModel ≠ []) :
    ∃ w1, syncConfigChooserToModel dn env w configToSelect = some w1
      ∧ w1.m_diagnosticConfigsModel = w.m_diagnosticConfigsModel
      ∧ 0 ≤ w1.m_selectedConfigIndex
      ∧ w1.m_selectedConfigIndex < w1.m_diagnosticConfigsModel.size
      ∧ (∃ c, selectedConfig w1 = some c)
      ∧ ((∃ c ∈ w.m_diagnosticConfigsModel, c.id = configToSelect) →
          (∃ c, selectedConfig w1 = some c ∧ c.id = configToSelect)
          ∧ ∀ (k : Nat) (c : ClangDiagnosticConfig), w1.m_selectedConfigIndex.toNat < k →
              w.m_diagnosticConfigsModel[k]? = some c → c.id ≠ configToSelect)
      ∧ ((∀ c ∈ w.m_diagnosticConfigsModel, c.id ≠ configToSelect) →
          (w.m_selectedConfigIndex < 0 → w1.m_selectedConfigIndex = 0)
          ∧ (0 ≤ w.m_selectedConfigIndex →
              w.m_selectedConfigIndex < w.m_diagnosticConfigsModel.size →
              w1.m_selectedConfigIndex = w.m_selectedConfigIndex)
          ∧ (w.m_diagnosticConfigsModel.size ≤ w.m_selectedConfigIndex →
              w1.m_selectedConfigIndex = w.m_diagnosticConfigsModel.size - 1)) := by
  obtain ⟨w1, h1, hm, _, _, hidx⟩ := syncConfigChooserToModel_fields dn env w configToSelect
  have hpos : 0 < w.m_diagnosticConfigsModel.length := List.length_pos.2 hne
  have hsize : w.m_diagnosticConfigsModel.size = (w.m_diagnosticConfigsModel.length : Int) := rfl
  by_cases hex : ∃ c ∈ w.m_diagnosticConfigsModel, c.id = configToSelect
  · obtain ⟨j, hj, ⟨c, hc, hcid⟩, hlast⟩ := syncLoop_of_mem configToSelect
      w.m_diagnosticConfigsModel 0
      (max (min w.m_selectedConfigIndex (w.m_diagnosticConfigsModel.size - 1)) 0) hex
    have hidx1 : w1.m_selectedConfigIndex = (j : Int) := by rw [hidx, hj]; simp
    have hjlt : j < w.m_diagnosticConfigsModel.length := by
      rcases Nat.lt_or_ge j w.m_diagnosticConfigsModel.length with h | h
      · exact h
      · rw [List.getElem?_eq_none h] at hc
        cases hc
    have hsel : selectedConfig w1 = some c :=
      selectedConfig_of_getElem w1 j c hidx1 (by rw [hm]; exact hc)
    refine ⟨w1, h1, hm, by omega, by rw [hm, hsize]; omega, ⟨c, hsel⟩, ?_, ?_⟩
    · intro _
      refine ⟨⟨c, hsel, hcid⟩, ?_⟩
      intro k c1 hk hget
      exact hlast k c1 (by omega) hget
    · intro hnone
      obtain ⟨c1, hc1, e⟩ := hex
      exact absurd e (hnone c1 hc1)
  · have hnone : ∀ c ∈ w.m_diagnosticConfigsModel, c.id ≠ configToSelect :=
      fun c hc e => hex ⟨c, hc, e⟩
    rw [syncLoop_of_not_mem configToSelect _ _ _ hnone] at hidx
    have hlo : 0 ≤ w1.m_selectedConfigIndex := by rw [hidx]; exact le_max_right _ _
    have hhi : w1.m_selectedConfigIndex < (w.m_diagnosticConfigsModel.length : Int) := by
      rw [hidx, hsize]
      omega
    have hget : ∃ c, w1.m_diagnosticConfigsModel[w1.m_selectedConfigIndex.toNat]? = some c := by
      cases hg : w1.m_diagnosticConfigsModel[w1.m_selectedConfigIndex.toNat]? with
      | none =>
        rw [List.getElem?_eq_none_iff, hm] at hg
        omega
      | some c => exact ⟨c, rfl⟩
    obtain ⟨c, hc⟩ := hget
    refine ⟨w1, h1, hm, hlo, by rw [hm, hsize]; exact hhi,
      ⟨c, selectedConfig_of_getElem w1 _ c (by omega) hc⟩, ?_, ?_⟩
    · intro hex1
      exact absurd hex1 hex
    · intro _
      rw [hidx, hsize]
      refine ⟨?_, ?_, ?_⟩ <;> intros <;> omega

/-- C10: the statement at the two-element example model with the previous index
5 (beyond the model) and an id the model does not have: the index becomes 1. -/
theorem syncConfigChooserToModel_selected_index_witness :
    ∃ w1, syncConfigChooserToModel (fun c => c.displayName) 0 (exampleWidget 5 []) 99 = some w1
      ∧ w1.m_selectedConfigIndex = 1
      ∧ (∃ c, selectedConfig w1 = some c) := by
  obtain ⟨w1, h1, _, _, _, h5, _, h7⟩ :=
    syncConfigChooserToModel_selected_index (fun c => c.displayName) 0 (exampleWidget 5 []) 99
      (by decide)
  exact ⟨w1, h1, (h7 (by decide)).2.2 (by decide), h5⟩

/-! ## The edit slots and the operations -/

/-- Every edit slot returns in a widget whose selected index is in the model. It
keeps the selected index, and either keeps the model and the log, or passes the
selected configuration with one field changed (not its id, not its read-only
flag) to `updateConfig`. -/
theorem runEditSlot_cases (env : Int) (w : ClangDiagnosticConfigsWidget)
    (c : ClangDiagnosticConfig) (hsel : selectedConfig w = some c) (slot : EditSlot) :
    ∃ w1, runEditSlot env w slot = some w1
      ∧ w1.m_selectedConfigIndex = w.m_selectedConfigIndex
      ∧ ((reachesEmit env w (Operation.edit slot) = false
            ∧ w1.m_diagnosticConfigsModel = w.m_diagnosticConfigsModel
            ∧ w1.customConfigsChanged = w.customConfigsChanged)
        ∨ (reachesEmit env w (Operation.edit slot) = true ∧
            ∃ config : ClangDiagnosticConfig, config.id = c.id
              ∧ config.isReadOnly = c.isReadOnly
              ∧ w1.m_diagnosticConfigsModel
                  = w.m_diagnosticConfigsModel.appendOrUpdate config
              ∧ w1.customConfigsChanged = w.customConfigsChanged ++ [customConfigs w1])) := by
  cases slot with
  | diagnosticOptionsEdited =>
    by_cases hok : validateDiagnosticOptions env
        (normalizeDiagnosticInputOptions w.diagnosticOptionsTextEdit) = []
    · refine ⟨_, onDiagnosticOptionsEdited_of_valid env w c hsel hok, rfl, Or.inr ⟨?_, ?_⟩⟩
      · simp [reachesEmit, hok]
      · exact ⟨{ c with clangOptions :=
            normalizeDiagnosticInputOptions w.diagnosticOptionsTextEdit }, rfl, rfl, rfl, rfl⟩
    · refine ⟨_, onDiagnosticOptionsEdited_of_error env w c hsel hok,
        (updateValidityWidgets_fields w _).2.1, Or.inl ⟨?_, ?_, ?_⟩⟩
      · simpa [reachesEmit, List.isEmpty_iff] using hok
      · exact (updateValidityWidgets_fields w _).1
      · exact (updateValidityWidgets_fields w _).2.2.1
  | clangTidyModeChanged index =>
    refine ⟨syncClangTidyWidgets (updateConfig w { c with clangTidyMode := index })
        { c with clangTidyMode := index },
      by simp only [runEditSlot, onClangTidyModeChanged, hsel], rfl,
      Or.inr ⟨rfl, { c with clangTidyMode := index }, rfl, rfl, rfl, rfl⟩⟩
  | clangTidyItemChanged item =>
    refine ⟨updateConfig w { c with
        clangTidyChecksPrefixes := clangTidyItemChangedChecks c.clangTidyChecksPrefixes item },
      by simp only [runEditSlot, onClangTidyItemChanged, hsel], rfl,
      Or.inr ⟨rfl, { c with
        clangTidyChecksPrefixes := clangTidyItemChangedChecks c.clangTidyChecksPrefixes item },
        rfl, rfl, rfl, rfl⟩⟩
  | clangTidyLineEdited text =>
    refine ⟨updateConfig w { c with clangTidyChecksString := text },
      by simp only [runEditSlot, onClangTidyLineEdited, hsel], rfl,
      Or.inr ⟨rfl, { c with clangTidyChecksString := text }, rfl, rfl, rfl, rfl⟩⟩
  | clazyRadioButtonChanged checked buttons =>
    cases checked with
    | false =>
      exact ⟨w, by simp [runEditSlot, onClazyRadioButtonChanged], rfl, Or.inl ⟨rfl, rfl, rfl⟩⟩
    | true =>
      obtain ⟨checks, hchecks⟩ : ∃ checks : QString, checks =
          (if buttons.clazyRadioDisabled then []
          else if buttons.clazyRadioLevel0 then "level0".toList
          else if buttons.clazyRadioLevel1 then "level1".toList
          else if buttons.clazyRadioLevel2 then "level2".toList
          else if buttons.clazyRadioLevel3 then "level3".toList
          else []) := ⟨_, rfl⟩
      refine ⟨updateConfig w { c with clazyChecks := checks },
        by simp only [runEditSlot, onClazyRadioButtonChanged, Bool.not_true,
          Bool.false_eq_true, if_false, hsel, hchecks], rfl,
        Or.inr ⟨rfl, { c with clazyChecks := checks }, rfl, rfl, rfl, rfl⟩⟩

theorem appendOrUpdate_ids (m : ClangDiagnosticConfigsModel) (config : ClangDiagnosticConfig) :
    ∀ x ∈ (ClangDiagnosticConfigsModel.appendOrUpdate m config).map (fun c => c.id),
      x ∈ m.map (fun c => c.id) ∨ x = config.id := by
  induction m with
  | nil => simp [ClangDiagnosticConfigsModel.appendOrUpdate]
  | cons d ds ih =>
    intro x hx
    unfold ClangDiagnosticConfigsModel.appendOrUpdate at hx
    by_cases hd : d.id = config.id
    · simp only [hd, beq_self_eq_true, if_true, List.map_cons, List.mem_cons] at hx
      rcases hx with h | h
      · exact Or.inr h
      · exact Or.inl (by simp [h])
    · simp only [beq_iff_eq, hd, if_false, List.map_cons, List.mem_cons] at hx
      rcases hx with h | h
      · exact Or.inl (by simp [h])
      · rcases ih x h with h1 | h1
        · exact Or.inl (by simp [h1])
        · exact Or.inr h1

theorem appendOrUpdate_nodup (m : ClangDiagnosticConfigsModel) (config : ClangDiagnosticConfig)
    (h : (m.map (fun c => c.id)).Nodup) :
    ((ClangDiagnosticConfigsModel.appendOrUpdate m config).map (fun c => c.id)).Nodup := by
  induction m with
  | nil => simp [ClangDiagnosticConfigsModel.appendOrUpdate]
  | cons d ds ih =>
    simp only [List.map_cons, List.nodup_cons] at h
    unfold ClangDiagnosticConfigsModel.appendOrUpdate
    by_cases hd : d.id = config.id
    · simp only [hd, beq_self_eq_true, if_true, List.map_cons, List.nodup_cons]
      exact ⟨hd ▸ h.1, h.2⟩
    · simp only [beq_iff_eq, hd, if_false, List.map_cons, List.nodup_cons]
      refine ⟨?_, ih h.2⟩
      intro hmem
      rcases appendOrUpdate_ids ds config _ hmem with h1 | h1
      · exact h.1 h1
      · exact hd h1

theorem appendOrUpdate_of_fresh (m : ClangDiagnosticConfigsModel) (config : ClangDiagnosticConfig)
    (h : config.id ∉ m.map (fun c => c.id)) :
    ClangDiagnosticConfigsModel.appendOrUpdate m config = m ++ [config] := by
  induction m with
  | nil => rfl
  | cons d ds ih =>
    simp only [List.map_cons, List.mem_cons, not_or] at h
    simp [ClangDiagnosticConfigsModel.appendOrUpdate, Ne.symm h.1, ih h.2]

theorem removeConfigWithId_nodup (m : ClangDiagnosticConfigsModel) (id : Core.Id)
    (h : (m.map (fun c => c.id)).Nodup) :
    ((ClangDiagnosticConfigsModel.removeConfigWithId m id).map (fun c => c.id)).Nodup :=
  List.Nodup.sublist (List.Sublist.map _ (List.eraseP_sublist m)) h

/-- Every operation returns in a widget whose selected index is in the model;
the model afterwards is the old one, the old one after `appendOrUpdate`, or the
old one after `removeConfigWithId`, and the log grows by the custom
configurations of the new model exactly when the operation reaches its `emit`. -/
theorem runOperation_cases (dn : ClangDiagnosticConfig → QString) (env : Int)
    (w : ClangDiagnosticConfigsWidget) (c : ClangDiagnosticConfig)
    (hsel : selectedConfig w = some c) (op : Operation) :
    ∃ w1, runOperation dn env w op = some w1
      ∧ (w1.m_diagnosticConfigsModel = w.m_diagnosticConfigsModel
          ∨ (∃ config, w1.m_diagnosticConfigsModel
              = w.m_diagnosticConfigsModel.appendOrUpdate config)
          ∨ (∃ id, w1.m_diagnosticConfigsModel
              = w.m_diagnosticConfigsModel.removeConfigWithId id))
      ∧ w1.customConfigsChanged
          = w.customConfigsChanged
            ++ (if reachesEmit env w op = true then [customConfigs w1] else []) := by
  cases op with
  | copy newName uuid =>
    obtain ⟨w1, h1, h2, h3, _, _⟩ := syncConfigChooserToModel_fields dn env
      { w with
        m_diagnosticConfigsModel :=
          w.m_diagnosticConfigsModel.appendOrUpdate (createCustomConfig c uuid newName)
        customConfigsChanged := w.customConfigsChanged ++
          [customConfigs { w with
            m_diagnosticConfigsModel :=
              w.m_diagnosticConfigsModel.appendOrUpdate (createCustomConfig c uuid newName) }] }
      (createCustomConfig c uuid newName).id
    refine ⟨w1, ?_, Or.inr (Or.inl ⟨_, h2⟩), ?_⟩
    · simp only [runOperation, onCopyButtonClicked, hsel, if_true]
      exact h1
    · rw [h3]
      simp only [reachesEmit, if_true, customConfigs, h2]
  | remove =>
    obtain ⟨w1, h1, h2, h3, _, _⟩ := syncConfigChooserToModel_fields dn env
      { w with
        m_diagnosticConfigsModel := w.m_diagnosticConfigsModel.removeConfigWithId c.id
        customConfigsChanged := w.customConfigsChanged ++
          [customConfigs { w with
            m_diagnosticConfigsModel :=
              w.m_diagnosticConfigsModel.removeConfigWithId c.id }] }
      defaultConfigToSelect
    refine ⟨w1, ?_, Or.inr (Or.inr ⟨_, h2⟩), ?_⟩
    · simp only [runOperation, onRemoveButtonClicked, selectedConfigId, hsel, Option.map_some']
      exact h1
    · rw [h3]
      simp only [reachesEmit, if_true, customConfigs, h2]
  | edit slot =>
    obtain ⟨w1, h1, _, h3⟩ := runEditSlot_cases env w c hsel slot
    refine ⟨w1, h1, ?_, ?_⟩
    · rcases h3 with ⟨_, hm, _⟩ | ⟨_, config, _, _, hm, _⟩
      · exact Or.inl hm
      · exact Or.inr (Or.inl ⟨config, hm⟩)
    · rcases h3 with ⟨he, _, hl⟩ | ⟨he, config, _, _, _, hl⟩
      · simp [he, hl]
      · simp [he, hl]

/-- The slot `syncOtherWidgetsToComboBox` enables the three tabs exactly when
the selected configuration is not read-only. -/
theorem syncOtherWidgetsToComboBox_enabled (env : Int) (t : ClangDiagnosticConfigsWidget)
    (d : ClangDiagnosticConfig) (hsel : selectedConfig t = some d)
    (hlist : t.configChooserList ≠ []) :
    ∃ t1, syncOtherWidgetsToComboBox env t = some t1
      ∧ t1.clangBaseChecksWidgetEnabled = !d.isReadOnly
      ∧ t1.tidyChecksWidgetEnabled = !d.isReadOnly
      ∧ t1.clazyChecksWidgetEnabled = !d.isReadOnly := by
  have hempty : isConfigChooserEmpty t = false := by
    cases hl : t.configChooserList with
    | nil => exact absurd hl hlist
    | cons a l => simp [isConfigChooserEmpty, hl]
  simp only [syncOtherWidgetsToComboBox, hempty, Bool.false_eq_true, if_false, hsel]
  refine ⟨_, rfl, ?_, rfl, rfl⟩
  simp only [syncClazyWidgets, syncClangTidyWidgets]
  split <;> rfl

/-! ## The invariants of the data model -/

/-- C5, as amended. In a widget whose ids are unique and whose selected
configuration is not read-only, every edit slot returns and leaves every
read-only configuration of the model at its position, field for field
identical; the model keeps its length. The slots do not test the read-only
flag: for a read-only selected configuration `syncOtherWidgetsToComboBox`
disables the three tabs whose widgets trigger them. -/
theorem runEditSlot_keeps_readOnly (env : Int) (w : ClangDiagnosticConfigsWidget)
    (c : ClangDiagnosticConfig) (hsel : selectedConfig w = some c)
    (hnodup : (modelIds w).Nodup) (hcustom : c.isReadOnly = false) (slot : EditSlot) :
    (∃ w1, runEditSlot env w slot = some w1
      ∧ w1.m_diagnosticConfigsModel.length = w.m_diagnosticConfigsModel.length
      ∧ ∀ (j : Nat) (r : ClangDiagnosticConfig), w.m_diagnosticConfigsModel[j]? = some r →
          r.isReadOnly = true → w1.m_diagnosticConfigsModel[j]? = some r)
    ∧ (∀ (t : ClangDiagnosticConfigsWidget) (d : ClangDiagnosticConfig),
        selectedConfig t = some d → d.isReadOnly = true → t.configChooserList ≠ [] →
        ∃ t1, syncOtherWidgetsToComboBox env t = some t1
          ∧ t1.clangBaseChecksWidgetEnabled = false
          ∧ t1.tidyChecksWidgetEnabled = false
          ∧ t1.clazyChecksWidgetEnabled = false) := by
  refine ⟨?_, ?_⟩
  swap
  · intro t d hd hro hlist
    obtain ⟨t1, h1, h2, h3, h4⟩ := syncOtherWidgetsToComboBox_enabled env t d hd hlist
    rw [hro] at h2 h3 h4
    exact ⟨t1, h1, h2, h3, h4⟩
  obtain ⟨w1, h1, _, h3⟩ := runEditSlot_cases env w c hsel slot
  obtain ⟨_, hget⟩ := selectedConfig_eq_some w c hsel
  refine ⟨w1, h1, ?_⟩
  rcases h3 with ⟨_, hm, _⟩ | ⟨_, config, hid, _, hm, _⟩
  · rw [hm]
    exact ⟨rfl, fun j r hj _ => hj⟩
  · rw [hm, appendOrUpdate_eq_set _ _ c config hget hid hnodup]
    refine ⟨by simp, ?_⟩
    intro j r hj hr
    have hne : w.m_selectedConfigIndex.toNat ≠ j := by
      intro e
      rw [e, hj] at hget
      cases hget
      rw [hr] at hcustom
      exact Bool.noConfusion hcustom
    simp [List.getElem?_set, hne, hj]

/-- C5: the amended statement at the example model with the custom
configuration selected and the slot `onClangTidyLineEdited`. -/
theorem runEditSlot_keeps_readOnly_witness :
    ∃ w1, runEditSlot 0 (exampleWidget 1 []) (EditSlot.clangTidyLineEdited "-*".toList) = some w1
      ∧ w1.m_diagnosticConfigsModel[0]? = some exampleBuiltinConfig := by
  obtain ⟨⟨w1, h1, _, h3⟩, _⟩ :=
    runEditSlot_keeps_readOnly 0 (exampleWidget 1 []) exampleCustomConfig (by decide)
      (by decide) (by decide) (EditSlot.clangTidyLineEdited "-*".toList)
  exact ⟨w1, h1, h3 0 exampleBuiltinConfig (by decide) (by decide)⟩

/-- C5 as stated fails when the selected configuration is the read-only one:
with the built-in configuration selected, `onClangTidyLineEdited` with the text
"x" replaces it in the model by a configuration with the checks string "x", so
the read-only configuration of before is no longer in the model. -/
theorem runEditSlot_keeps_readOnly_counterexample :
    exampleBuiltinConfig ∈ (exampleWidget 0 []).m_diagnosticConfigsModel
    ∧ exampleBuiltinConfig.isReadOnly = true
    ∧ ((exampleWidget 0 []).modelIds).Nodup
    ∧ ∃ w1, runEditSlot 0 (exampleWidget 0 []) (EditSlot.clangTidyLineEdited "x".toList) = some w1
        ∧ w1.m_diagnosticConfigsModel
            = [{ exampleBuiltinConfig with clangTidyChecksString := "x".toList },
                exampleCustomConfig]
        ∧ exampleBuiltinConfig ∉ w1.m_diagnosticConfigsModel :=
  ⟨by decide, by decide, by decide, _, rfl, by decide, by decide⟩

/-- C6. In a widget whose selected index is in the model and whose ids are
unique, every operation (an accepted copy with any entered name and any
generated id, a removal, every edit slot) returns, and afterwards the ids of
the model are unique. -/
theorem runOperation_ids_unique (dn : ClangDiagnosticConfig → QString) (env : Int)
    (w : ClangDiagnosticConfigsWidget) (c : ClangDiagnosticConfig)
    (hsel : selectedConfig w = some c) (hnodup : (modelIds w).Nodup) (op : Operation) :
    ∃ w1, runOperation dn env w op = some w1 ∧ (modelIds w1).Nodup := by
  obtain ⟨w1, h1, h2, _⟩ := runOperation_cases dn env w c hsel op
  refine ⟨w1, h1, ?_⟩
  unfold modelIds
  rcases h2 with h | ⟨config, h⟩ | ⟨id, h⟩
  · rw [h]; exact hnodup
  · rw [h]; exact appendOrUpdate_nodup _ _ hnodup
  · rw [h]; exact removeConfigWithId_nodup _ _ hnodup

/-- C6: the statement at an accepted copy of the custom configuration of the
example model, with the generated id 9. -/
theorem runOperation_ids_unique_witness :
    ∃ w1, runOperation (fun c => c.displayName) 0 (exampleWidget 1 [])
        (Operation.copy "Mine (Copy)".toList 9) = some w1
      ∧ (modelIds w1).Nodup :=
  runOperation_ids_unique (fun c => c.displayName) 0 (exampleWidget 1 []) exampleCustomConfig
    (by decide) (by decide) (Operation.copy "Mine (Copy)".toList 9)

/-! ## Copying a configuration -/

/-- C7. In a widget whose selected index is in the model, with the selected
configuration c (read-only or not), for every name n and every generated id u
that no configuration of the model has: an accepted copy returns, the model
afterwards is the old one followed by one new configuration with the id u, the
display name n, the read-only flag false and the other fields of c, and the
selected configuration is that copy. A cancelled dialog returns the widget
unchanged. -/
theorem onCopyButtonClicked_copies (dn : ClangDiagnosticConfig → QString) (env : Int)
    (w : ClangDiagnosticConfigsWidget) (c : ClangDiagnosticConfig) (newName : QString)
    (uuid : Core.Id) (hsel : selectedConfig w = some c) (hfresh : uuid ∉ modelIds w) :
    (∃ w1, onCopyButtonClicked dn env w true newName uuid = some w1
      ∧ w1.m_diagnosticConfigsModel
          = w.m_diagnosticConfigsModel ++
            [{ id := uuid
               displayName := newName
               clangOptions := c.clangOptions
               clangTidyMode := c.clangTidyMode
               clangTidyChecksPrefixes := c.clangTidyChecksPrefixes
               clangTidyChecksString := c.clangTidyChecksString
               clazyChecks := c.clazyChecks
               isReadOnly := false }]
      ∧ w1.m_selectedConfigIndex = (w.m_diagnosticConfigsModel.length : Int)
      ∧ selectedConfig w1
          = some { id := uuid
                   displayName := newName
                   clangOptions := c.clangOptions
                   clangTidyMode := c.clangTidyMode
                   clangTidyChecksPrefixes := c.clangTidyChecksPrefixes
                   clangTidyChecksString := c.clangTidyChecksString
                   clazyChecks := c.clazyChecks
                   isReadOnly := false })
    ∧ onCopyButtonClicked dn env w false newName uuid = some w := by
  refine ⟨?_, by simp [onCopyButtonClicked, hsel]⟩
  have happend : w.m_diagnosticConfigsModel.appendOrUpdate (createCustomConfig c uuid newName)
      = w.m_diagnosticConfigsModel ++ [createCustomConfig c uuid newName] :=
    appendOrUpdate_of_fresh _ _ hfresh
  obtain ⟨w1, h1, h2, _, _, h5⟩ := syncConfigChooserToModel_fields dn env
    { w with
      m_diagnosticConfigsModel :=
        w.m_diagnosticConfigsModel.appendOrUpdate (createCustomConfig c uuid newName)
      customConfigsChanged := w.customConfigsChanged ++
        [customConfigs { w with
          m_diagnosticConfigsModel :=
            w.m_diagnosticConfigsModel.appendOrUpdate (createCustomConfig c uuid newName) }] }
    (createCustomConfig c uuid newName).id
  simp only [happend] at h2 h5
  have hmodel : w1.m_diagnosticConfigsModel
      = w.m_diagnosticConfigsModel ++ [createCustomConfig c uuid newName] := h2
  obtain ⟨j, hj, ⟨c1, hc1, hid1⟩, _⟩ := syncLoop_of_mem (createCustomConfig c uuid newName).id
    (w.m_diagnosticConfigsModel ++ [createCustomConfig c uuid newName]) 0
    (max (min w.m_selectedConfigIndex
      ((w.m_diagnosticConfigsModel ++ [createCustomConfig c uuid newName]).size - 1)) 0)
    ⟨_, by simp, rfl⟩
  have hjeq : j = w.m_diagnosticConfigsModel.length := by
    rcases Nat.lt_trichotomy j w.m_diagnosticConfigsModel.length with h | h | h
    · exfalso
      rw [List.getElem?_append_left h] at hc1
      apply hfresh
      exact List.mem_map.2 ⟨c1, List.getElem?_mem hc1, hid1⟩
    · exact h
    · exfalso
      rw [List.getElem?_eq_none (by simp; omega)] at hc1
      cases hc1
  have hidx : w1.m_selectedConfigIndex = (w.m_diagnosticConfigsModel.length : Int) := by
    rw [h5, hj, hjeq]
    simp
  refine ⟨w1, ?_, hmodel, hidx, ?_⟩
  · simp only [onCopyButtonClicked, hsel, if_true]
    exact h1
  · apply selectedConfig_of_getElem w1 w.m_diagnosticConfigsModel.length _ hidx
    rw [hmodel]
    simp [createCustomConfig]

/-- C7: the statement at a copy of the read-only configuration of the example
model, with the name "Mine 2" and the generated id 9. -/
theorem onCopyButtonClicked_copies_witness :
    ∃ w1, onCopyButtonClicked (fun c => c.displayName) 0 (exampleWidget 0 []) true
        "Mine 2".toList 9 = some w1
      ∧ w1.m_diagnosticConfigsModel
          = [exampleBuiltinConfig, exampleCustomConfig,
              { exampleBuiltinConfig with
                id := 9, displayName := "Mine 2".toList, isReadOnly := false }]
      ∧ w1.m_selectedConfigIndex = 2 :=
  let ⟨w1, h1, h2, h3, _⟩ :=
    (onCopyButtonClicked_copies (fun c => c.displayName) 0 (exampleWidget 0 [])
      exampleBuiltinConfig "Mine 2".toList 9 (by decide) (by decide)).1
  ⟨w1, h1, h2, h3⟩

/-! ## The change notification -/

/-- C8. In a widget whose selected index is in the model, every operation
returns; when it reaches its `emit` (every accepted copy, every removal, every
committed edit) the log grows by exactly one notification, which carries
`customConfigs()` of the model as the operation leaves it, and otherwise the
log is unchanged. `customConfigs()` is the sub-list of the configurations of the
model whose read-only flag is false, in model order: it holds exactly the
configurations of the model that are not read-only, each as often as the model
does, which is once when the ids of the model are unique. -/
theorem runOperation_notification (dn : ClangDiagnosticConfig → QString) (env : Int)
    (w : ClangDiagnosticConfigsWidget) (c : ClangDiagnosticConfig)
    (hsel : selectedConfig w = some c) (op : Operation) :
    ∃ w1, runOperation dn env w op = some w1
      ∧ w1.customConfigsChanged
          = w.customConfigsChanged
            ++ (if reachesEmit env w op = true then [customConfigs w1] else [])
      ∧ customConfigs w1
          = w1.m_diagnosticConfigsModel.filter (fun config => !config.isReadOnly)
      ∧ List.Sublist (customConfigs w1) w1.m_diagnosticConfigsModel
      ∧ (∀ x, x ∈ customConfigs w1 ↔ (x ∈ w1.m_diagnosticConfigsModel ∧ x.isReadOnly = false))
      ∧ (∀ x, x.isReadOnly = false →
          (customConfigs w1).count x = w1.m_diagnosticConfigsModel.count x)
      ∧ ((modelIds w1).Nodup → ∀ x ∈ w1.m_diagnosticConfigsModel, x.isReadOnly = false →
          (customConfigs w1).count x = 1) := by
  obtain ⟨w1, h1, _, h3⟩ := runOperation_cases dn env w c hsel op
  have hcount : ∀ x : ClangDiagnosticConfig, x.isReadOnly = false →
      (customConfigs w1).count x = w1.m_diagnosticConfigsModel.count x := by
    intro x hr
    simp only [customConfigs, ClangDiagnosticConfigsModel.configs, List.count_filter, hr,
      Bool.not_false]
  refine ⟨w1, h1, h3, rfl, List.filter_sublist _, ?_, hcount, ?_⟩
  · intro x
    simp [customConfigs, ClangDiagnosticConfigsModel.configs, List.mem_filter]
  · intro hnd x hx hr
    rw [hcount x hr]
    exact List.count_eq_one_of_mem (List.Nodup.of_map _ hnd) hx

/-- C8: the statement at the removal of the custom configuration of the example
model: the one notification carries the empty list. -/
theorem runOperation_notification_witness :
    ∃ w1, runOperation (fun c => c.displayName) 0 (exampleWidget 1 []) Operation.remove = some w1
      ∧ w1.customConfigsChanged = [customConfigs w1]
      ∧ customConfigs w1 = [] := by
  obtain ⟨w1, h1, h2, _⟩ :=
    runOperation_notification (fun c => c.displayName) 0 (exampleWidget 1 [])
      exampleCustomConfig (by decide) Operation.remove
  refine ⟨w1, h1, h2, ?_⟩
  have h3 : runOperation (fun c => c.displayName) 0 (exampleWidget 1 []) Operation.remove
      = some w1 := h1
  simp only [runOperation, onRemoveButtonClicked] at h3
  cases h3
  decide

/-! ## The list of clang-tidy checks -/

theorem indexOfFrom_spec (str s : QString) (i : Int) (hi : 0 ≤ i) :
    (QString.indexOfFrom str s i = -1 ∧ ¬ str <:+: s)
      ∨ (i ≤ QString.indexOfFrom str s i ∧ str <:+: s) := by
  induction s generalizing i with
  | nil =>
    unfold QString.indexOfFrom
    cases str with
    | nil => exact Or.inr ⟨by simp, List.infix_refl _⟩
    | cons a l => exact Or.inl ⟨by simp, by simp⟩
  | cons c cs ih =>
    unfold QString.indexOfFrom
    by_cases hp : str.isPrefixOf (c :: cs) = true
    · rw [if_pos hp]
      exact Or.inr ⟨le_refl _, (List.isPrefixOf_iff_prefix.1 hp).isInfix⟩
    · rw [if_neg hp]
      rcases ih (i + 1) (by omega) with ⟨h1, h2⟩ | ⟨h1, h2⟩
      · refine Or.inl ⟨h1, ?_⟩
        rw [List.infix_cons_iff]
        rintro (h | h)
        · exact hp (List.isPrefixOf_iff_prefix.2 h)
        · exact h2 h
      · exact Or.inr ⟨by omega, List.infix_cons_iff.2 (Or.inr h2)⟩

theorem indexOf_ne_iff (s str : QString) : QString.indexOf s str ≠ -1 ↔ str <:+: s := by
  unfold QString.indexOf
  rcases indexOfFrom_spec str s 0 (le_refl _) with ⟨h1, h2⟩ | ⟨h1, h2⟩
  · simp [h1, h2]
  · constructor
    · intro _; exact h2
    · intro _ h; omega

theorem removeLoop_skip (str a b : QString) :
    QString.removeLoop str a.length (a ++ b) = QString.removeLoop str 0 b := by
  induction a with
  | nil => rfl
  | cons c cs ih => simpa [QString.removeLoop] using ih

theorem removeLoop_no_comma (p q r : QString) (hq : ',' ∉ q) :
    QString.removeLoop (',' :: p) 0 (q ++ r) = q ++ QString.removeLoop (',' :: p) 0 r := by
  induction q with
  | nil => rfl
  | cons c cs ih =>
    simp only [List.mem_cons, not_or] at hq
    have hne : (',' == c) = false := by simpa using hq.1
    simp [QString.removeLoop, List.isPrefixOf, hne, ih hq.2]

theorem prefixesString_head (qs : List QString) :
    prefixesString qs = [] ∨ ∃ r, prefixesString qs = ',' :: r := by
  cases qs with
  | nil => exact Or.inl rfl
  | cons q qs => exact Or.inr ⟨_, rfl⟩

/-- A comma-free string that starts an entry followed by a comma or by the end
starts inside the entry. -/
theorem prefix_of_prefix_entry (p q r : QString) (hp : ',' ∉ p)
    (hr : r = [] ∨ ∃ r1, r = ',' :: r1) (h : p <+: q ++ r) : p <+: q := by
  rcases List.prefix_or_prefix_of_prefix h (List.prefix_append q r) with h1 | ⟨t, ht⟩
  · exact h1
  · subst ht
    rw [List.prefix_append_right_inj] at h
    cases t with
    | nil => simp
    | cons c t1 =>
      exfalso
      rcases hr with hr | ⟨r1, hr⟩
      · subst hr
        simp at h
      · subst hr
        rw [List.cons_prefix_cons] at h
        apply hp
        rw [h.1]
        simp

theorem remove_prefixesString (p : QString) (qs : List QString) (hp : ',' ∉ p)
    (hqs : ∀ q ∈ qs, ',' ∉ q) (hsub : ∀ q ∈ qs, q ≠ p → ¬ p <:+: q) :
    QString.removeLoop (',' :: p) 0 (prefixesString qs)
      = prefixesString (qs.filter (fun q => q ≠ p)) := by
  induction qs with
  | nil => rfl
  | cons q qs ih =>
    have ih1 := ih (fun x hx => hqs x (by simp [hx])) (fun x hx => hsub x (by simp [hx]))
    by_cases hqp : q = p
    · subst hqp
      have hpre : List.isPrefixOf q (q ++ prefixesString qs) = true :=
        List.isPrefixOf_iff_prefix.2 (List.prefix_append _ _)
      simp only [prefixesString, QString.removeLoop, List.isPrefixOf, beq_self_eq_true,
        Bool.true_and, hpre, if_true, List.length_cons, Nat.add_sub_cancel]
      rw [removeLoop_skip, ih1]
      simp [List.filter]
    · have hnot : List.isPrefixOf p (q ++ prefixesString qs) = false := by
        apply Bool.eq_false_iff.2
        intro hpre
        exact hsub q (by simp) hqp
          (prefix_of_prefix_entry p q _ hp (prefixesString_head qs)
            (List.isPrefixOf_iff_prefix.1 hpre)).isInfix
      simp only [prefixesString, QString.removeLoop, List.isPrefixOf, beq_self_eq_true,
        Bool.true_and, hnot, Bool.false_eq_true, if_false]
      rw [removeLoop_no_comma p q _ (hqs q (by simp)), ih1]
      simp [List.filter, hqp, prefixesString]

theorem infix_entry_append (p q : QString) (qs : List QString) (hp : ',' ∉ p)
    (h : p <:+: q ++ prefixesString qs) : p <:+: q ∨ p <:+: prefixesString qs := by
  induction q with
  | nil => exact Or.inr h
  | cons c cs ih =>
    rw [List.cons_append, List.infix_cons_iff] at h
    rcases h with h | h
    · exact Or.inl (prefix_of_prefix_entry p (c :: cs) _ hp (prefixesString_head qs) h).isInfix
    · rcases ih h with h1 | h1
      · exact Or.inl (List.infix_cons_iff.2 (Or.inr h1))
      · exact Or.inr h1

theorem infix_prefixesString (p : QString) (qs : List QString) (hne : p ≠ []) (hp : ',' ∉ p)
    (h : p <:+: prefixesString qs) : ∃ q ∈ qs, p <:+: q := by
  induction qs with
  | nil =>
    simp only [prefixesString, List.infix_nil] at h
    exact absurd h hne
  | cons q qs ih =>
    simp only [prefixesString] at h
    rw [List.infix_cons_iff] at h
    rcases h with h | h
    · exfalso
      cases p with
      | nil => exact hne rfl
      | cons a l =>
        rw [List.cons_prefix_cons] at h
        apply hp
        rw [h.1]
        simp
    · rcases infix_entry_append p q qs hp h with h1 | h1
      · exact ⟨q, by simp, h1⟩
      · obtain ⟨q1, hq1, hin⟩ := ih h1
        exact ⟨q1, by simp [hq1], hin⟩

/-- C9, as amended. In a widget whose selected index is in the model,
`onClangTidyItemChanged` for an item with the text p returns and passes the
selected configuration with the new prefix string to `updateConfig` (with
unique ids it is the selected configuration afterwards). When the item is
checked, the check state that `syncTidyChecksList` computes for it from the new
string is checked, for every stored string. When the item is unchecked, the
computed state is unchecked provided the stored string is a sequence of
entries each behind a comma, no entry has a comma, p is not empty and has no
comma, and p occurs inside no entry other than p itself. -/
theorem onClangTidyItemChanged_check_state (w : ClangDiagnosticConfigsWidget)
    (config : ClangDiagnosticConfig) (item : QListWidgetItem)
    (hsel : selectedConfig w = some config) :
    ∃ config1 : ClangDiagnosticConfig,
      config1 = { config with
        clangTidyChecksPrefixes :=
          clangTidyItemChangedChecks config.clangTidyChecksPrefixes item }
      ∧ onClangTidyItemChanged w item = some (updateConfig w config1)
      ∧ ((modelIds w).Nodup → selectedConfig (updateConfig w config1) = some config1)
      ∧ (item.checkState = CheckState.Checked →
          config1.clangTidyChecksPrefixes = config.clangTidyChecksPrefixes ++ ',' :: item.text
          ∧ (syncTidyChecksList config1 [item]).map (fun i => i.checkState)
            = [CheckState.Checked])
      ∧ (item.checkState = CheckState.Unchecked →
          ∀ entries : List QString,
            config.clangTidyChecksPrefixes = prefixesString entries →
            item.text ≠ [] → ',' ∉ item.text →
            (∀ q ∈ entries, ',' ∉ q) →
            (∀ q ∈ entries, q ≠ item.text → ¬ item.text <:+: q) →
            config1.clangTidyChecksPrefixes
              = prefixesString (entries.filter (fun q => q ≠ item.text))
            ∧ (syncTidyChecksList config1 [item]).map (fun i => i.checkState)
              = [CheckState.Unchecked]) := by
  obtain ⟨h0, hget⟩ := selectedConfig_eq_some w config hsel
  have hlt : w.m_selectedConfigIndex.toNat < w.m_diagnosticConfigsModel.length := by
    rcases Nat.lt_or_ge w.m_selectedConfigIndex.toNat w.m_diagnosticConfigsModel.length with h | h
    · exact h
    · rw [List.getElem?_eq_none h] at hget
      cases hget
  refine ⟨_, rfl, by simp only [onClangTidyItemChanged, hsel], ?_, ?_, ?_⟩
  · intro hnodup
    apply selectedConfig_of_getElem _ w.m_selectedConfigIndex.toNat
    · show w.m_selectedConfigIndex = _
      omega
    · show (w.m_diagnosticConfigsModel.appendOrUpdate _)[_]? = _
      rw [appendOrUpdate_eq_set _ _ config { config with
        clangTidyChecksPrefixes :=
          clangTidyItemChangedChecks config.clangTidyChecksPrefixes item } hget rfl hnodup]
      simp [hlt]
  · intro hchecked
    have hin : item.text <:+: config.clangTidyChecksPrefixes ++ ',' :: item.text :=
      ⟨config.clangTidyChecksPrefixes ++ [','], [], by simp⟩
    simp [syncTidyChecksList, clangTidyItemChangedChecks, hchecked, indexOf_ne_iff, hin]
  · intro hunchecked entries hstored hne hcomma hentries hsub
    have hremove : QString.remove config.clangTidyChecksPrefixes (',' :: item.text)
        = prefixesString (entries.filter (fun q => q ≠ item.text)) := by
      rw [hstored]
      simp only [QString.remove, List.isEmpty_cons, Bool.false_eq_true, if_false]
      exact remove_prefixesString item.text entries hcomma hentries hsub
    have hnotin : ¬ item.text <:+: QString.remove config.clangTidyChecksPrefixes
        (',' :: item.text) := by
      intro hin
      rw [hremove] at hin
      obtain ⟨q, hq, hqin⟩ := infix_prefixesString item.text _ hne hcomma hin
      simp only [List.mem_filter, decide_eq_true_eq] at hq
      exact hsub q hq.1 hq.2 hqin
    refine ⟨?_, ?_⟩
    · simp only [clangTidyItemChangedChecks, hunchecked]
      simpa using hremove
    · simp [syncTidyChecksList, clangTidyItemChangedChecks, hunchecked, indexOf_ne_iff, hnotin]

/-- C9: the amended statement at the stored string ",modernize-,readability-"
and the item "modernize-" unchecked: the new string is ",readability-" and the
computed state is unchecked. -/
theorem onClangTidyItemChanged_check_state_witness :
    ∃ config1 : ClangDiagnosticConfig,
      onClangTidyItemChanged (exampleTidyWidget ",modernize-,readability-".toList)
        (exampleItem "modernize-".toList CheckState.Unchecked)
        = some (updateConfig (exampleTidyWidget ",modernize-,readability-".toList) config1)
      ∧ config1.clangTidyChecksPrefixes = ",readability-".toList
      ∧ (syncTidyChecksList config1
          [exampleItem "modernize-".toList CheckState.Unchecked]).map (fun i => i.checkState)
          = [CheckState.Unchecked] := by
  obtain ⟨config1, _, h2, _, _, h5⟩ :=
    onClangTidyItemChanged_check_state (exampleTidyWidget ",modernize-,readability-".toList)
      { exampleCustomConfig with clangTidyChecksPrefixes := ",modernize-,readability-".toList }
      (exampleItem "modernize-".toList CheckState.Unchecked) (by decide)
  have h6 := h5 rfl ["modernize-".toList, "readability-".toList] (by decide) (by decide)
    (by decide) (by decide) (by decide)
  refine ⟨config1, h2, ?_, h6.2⟩
  rw [h6.1]
  decide

/-- C9 as stated fails for an unchecked item whose text occurs inside another
entry: with the stored string ",google-readability-" and the item
"readability-" unchecked, the slot removes nothing, and `syncTidyChecksList`
computes the state checked from the stored string. -/
theorem onClangTidyItemChanged_check_state_counterexample :
    ∃ w1 config1,
      onClangTidyItemChanged (exampleTidyWidget ",google-readability-".toList)
        (exampleItem "readability-".toList CheckState.Unchecked) = some w1
      ∧ selectedConfig w1 = some config1
      ∧ config1.clangTidyChecksPrefixes = ",google-readability-".toList
      ∧ (syncTidyChecksList config1
          [exampleItem "readability-".toList CheckState.Unchecked]).map (fun i => i.checkState)
          = [CheckState.Checked]
      ∧ CheckState.Checked
          ≠ (exampleItem "readability-".toList CheckState.Unchecked).checkState :=
  ⟨_, _, rfl, rfl, by decide, by decide, by decide⟩

end ClangDiagnosticConfigsWidget

end CppTools
